import Mathlib

/-
A verification development for the workspace-management core of the i3
window manager. The definitions below are a shallow embedding of
src/workspace.c and src/output.c over the data model of include/data.h:
C strings become Lean `String`/`List Char`, the intrusive TAILQ lists
become Lean `List`s, machine integers become `Int` with explicit
wrapping where the C code narrows, and the container tree is modelled
at the granularity the workspace code observes it (outputs holding a
content list of workspaces; workspaces holding tiling and floating
child trees). Side effects (IPC events, pointer warps, EWMH updates)
are collected in an explicit effect list.
-/

namespace I3

/- ### Enumerations from include/data.h -/

/-- Container kinds, from `struct Con` in include/data.h. -/
inductive ConType where
  | CT_ROOT
  | CT_OUTPUT
  | CT_CON
  | CT_FLOATING_CON
  | CT_WORKSPACE
  | CT_DOCKAREA
deriving DecidableEq, Repr

/-- Fullscreen modes, from `struct Con` in include/data.h. -/
inductive FullscreenMode where
  | CF_NONE
  | CF_OUTPUT
  | CF_GLOBAL
deriving DecidableEq, Repr

export FullscreenMode (CF_NONE CF_OUTPUT CF_GLOBAL)

/- ### A model of C `strtol(nptr, &endptr, 10)`

workspace_get and create_workspace_on_output both derive the workspace
number with `strtol(name, &endptr, 10)` followed by the same guard.
`strtol` skips leading whitespace, consumes an optional sign and then a
maximal run of decimal digits; when it consumes no digit it leaves
`endptr == nptr`. On overflow it clamps to LONG_MIN / LONG_MAX. -/

/-- C `isspace` on the default locale. -/
def isSpaceC (c : Char) : Bool :=
  c = ' ' || c = '\t' || c = '\n' || c = '\x0b' || c = '\x0c' || c = '\r'

def LONG_MAX : Int := 2 ^ 63 - 1

def LONG_MIN : Int := -(2 ^ 63)

/-- Value of a run of decimal digits, most significant first. -/
def digitsToInt (ds : List Char) : Int :=
  ds.foldl (fun a c => a * 10 + ((c.toNat : Int) - 48)) 0

structure StrtolOut where
  value : Int
  converted : Bool
deriving DecidableEq, Repr

/-- Model of `strtol(s, &endptr, 10)`: `value` is the (clamped) result,
`converted` is `endptr != s`, i.e. whether any digit was consumed. -/
def strtol10 (s : List Char) : StrtolOut :=
  let s1 := s.dropWhile isSpaceC
  let sgn : Int × List Char :=
    match s1 with
    | '-' :: r => (-1, r)
    | '+' :: r => (1, r)
    | _ => (1, s1)
  let ds := sgn.2.takeWhile Char.isDigit
  if ds.isEmpty then ⟨0, false⟩
  else ⟨max LONG_MIN (min LONG_MAX (sgn.1 * digitsToInt ds)), true⟩

/-- Narrowing from C `long` to C `int` (the assignment
`workspace->num = parsed_num` narrows 64-bit to 32-bit). -/
def toInt32 (v : Int) : Int := (v + 2 ^ 31) % 2 ^ 32 - 2 ^ 31

/-- The `num` computation of workspace_get, src/workspace.c:79-87:
```
char *endptr = NULL;
long parsed_num = strtol(num, &endptr, 10);
if (parsed_num == LONG_MIN || parsed_num == LONG_MAX ||
    parsed_num < 0 || endptr == num)
    workspace->num = -1;
else workspace->num = parsed_num;
```
(create_workspace_on_output repeats the same block verbatim). -/
def parseWorkspaceNum (name : String) : Int :=
  let r := strtol10 name.data
  if r.value = LONG_MIN ∨ r.value = LONG_MAX ∨ r.value < 0 ∨ r.converted = false
  then -1
  else toInt32 r.value

/- ### Specification-side notions for the `num` field -/

/-- The claim's notion: the whole name is a non-negative decimal. -/
def isNonNegDecimal (s : String) : Bool :=
  !s.data.isEmpty && s.data.all Char.isDigit

/-- Value of a name that is a plain decimal string. -/
def decimalValue (s : String) : Int := digitsToInt s.data

/-- The leading decimal of a name: after optional whitespace and an
optional sign, a maximal nonempty digit run, with its signed value. -/
def leadingDecInt (s : String) : Option Int :=
  let s1 := s.data.dropWhile isSpaceC
  let sgn : Int × List Char :=
    match s1 with
    | '-' :: r => (-1, r)
    | '+' :: r => (1, r)
    | _ => (1, s1)
  let ds := sgn.2.takeWhile Char.isDigit
  if ds.isEmpty then none else some (sgn.1 * digitsToInt ds)

/- ### The container tree below a workspace

Client containers as the urgency recursion of workspace.c sees them:
an `urgent` flag, the tiling children (`nodes_head`) and the floating
children (`floating_head`). Fields of `struct Con` the workspace code
never reads (rects, marks, window ids, ...) are omitted. -/

inductive Con where
  | mk (urgent : Bool) (nodes : List Con) (floating : List Con)

def Con.urgent : Con → Bool
  | .mk u _ _ => u

def Con.nodes : Con → List Con
  | .mk _ n _ => n

def Con.floating : Con → List Con
  | .mk _ _ f => f

mutual

/-- get_urgency_flag, src/workspace.c:668-679: scans the tiling and
floating children; true iff some child is urgent or recursively
contains an urgent container. -/
def get_urgency_flag : Con → Bool
  | .mk _ ns fs => anyUrgent ns || anyUrgent fs

/-- One TAILQ_FOREACH loop of get_urgency_flag:
`child->urgent || get_urgency_flag(child)` over a child list. -/
def anyUrgent : List Con → Bool
  | [] => false
  | c :: rest => (c.urgent || get_urgency_flag c) || anyUrgent rest

end

/-- Specification-side: `StrictDesc c p` holds iff `c` is a strict
descendant of `p` reached through tiling or floating children. -/
inductive StrictDesc : Con → Con → Prop
  | here_node {c p : Con} : c ∈ p.nodes → StrictDesc c p
  | here_float {c p : Con} : c ∈ p.floating → StrictDesc c p
  | via_node {c d p : Con} : d ∈ p.nodes → StrictDesc c d → StrictDesc c p
  | via_float {c d p : Con} : d ∈ p.floating → StrictDesc c d → StrictDesc c p

/- ### Side effects

IPC events, redraw requests and X11 side effects of the workspace
code, collected in order of emission. -/

inductive Effect where
  | ipcWorkspaceEvent (change : String)
  | redraw
  | warpPointer
  | ewmhUpdateCurrentDesktop
deriving DecidableEq, Repr

def Con.withUrgent : Con → Bool → Con
  | .mk _ ns fs, u => .mk u ns fs

/-- workspace_update_urgent_flag, src/workspace.c:686-693:
```
bool old_flag = ws->urgent;
ws->urgent = get_urgency_flag(ws);
if (old_flag != ws->urgent)
    ipc_send_event("workspace", I3_IPC_EVENT_WORKSPACE, ...urgent...);
```
The function emits no other effect (in particular no redraw). -/
def workspace_update_urgent_flag (ws : Con) : Con × List Effect :=
  let old_flag := ws.urgent
  let ws1 := ws.withUrgent (get_urgency_flag ws)
  if old_flag ≠ ws1.urgent then (ws1, [Effect.ipcWorkspaceEvent "urgent"])
  else (ws1, [])

/- ### ASCII case-insensitive comparison (C strcasecmp) -/

def lowerChar (c : Char) : Char :=
  if 'A' ≤ c ∧ c ≤ 'Z' then Char.ofNat (c.toNat + 32) else c

def lowerStr (s : String) : List Char := s.data.map lowerChar

/-- Model of `!strcasecmp(a, b)`: ASCII case-insensitive string equality. -/
def strCaseEq (a b : String) : Bool := lowerStr a == lowerStr b

/- ### Workspaces, outputs and the world -/

/-- A workspace container (a CT_WORKSPACE `Con`) with the fields the
workspace code reads. `wid` models container identity (the C pointer);
`nodes` and `floating` are the child lists. -/
structure Ws where
  wid : Nat
  name : String
  num : Int
  ctype : ConType
  fullscreen : FullscreenMode
  nodes : List Con
  floating : List Con

/-- An output below `croot` with its content container inlined:
`content` is the child list of the CT_CON content container returned
by output_get_content(output) — the workspaces, in tree order. -/
structure OutputC where
  name : String
  content : List Ws

/-- The global state touched by src/workspace.c: the outputs below
`croot`, the workspace and output of the globally `focused` container
(`con_get_workspace(focused)` and `con_get_output(focused)`), the
static `previous_workspace_name`, and the `ws_assignments` list of
workspace → output assignments `(name, output)`. -/
structure World where
  outputs : List OutputC
  focusedWs : Option Nat
  focusedOutput : String
  prevName : Option String
  wsAssignments : List (String × String)

def World.allWs (w : World) : List Ws :=
  (w.outputs.map OutputC.content).flatten

/-- Container identities are unique (each `Con` is one allocation). -/
def widsNodup (w : World) : Prop := (w.allWs.map Ws.wid).Nodup

/-- Dereferencing a workspace pointer: the workspace with this
identity, scanning outputs in tree order. -/
def findWsByWid (w : World) (wid : Nat) : Option Ws :=
  w.allWs.find? (fun c => c.wid == wid)

/-- The lookup loop of workspace_get, src/workspace.c:47-48:
```
TAILQ_FOREACH(output, &(croot->nodes_head), nodes)
    GREP_FIRST(workspace, output_get_content(output),
               !strcasecmp(child->name, num));
```
GREP_FIRST only assigns on a hit, and the outer loop does not stop
after a hit, so the match from the *last* matching output wins. -/
def findWsGrep (w : World) (name : String) : Option Ws :=
  w.outputs.foldl
    (fun acc o =>
      match o.content.find? (fun c => strCaseEq c.name name) with
      | some c => some c
      | none => acc)
    none

/-- A fresh container identity for `con_new`. -/
def World.freshWid (w : World) : Nat :=
  (w.allWs.map Ws.wid).foldr max 0 + 1

/-- Output selection of workspace_get, src/workspace.c:52-63: start
from `con_get_output(focused)`; the first assignment whose name
matches exactly (strcmp) redirects to the output of that name if one
exists (GREP_FIRST leaves `output` untouched when no output matches). -/
def selectOutputName (w : World) (name : String) : String :=
  match w.wsAssignments.find? (fun a => a.1 == name) with
  | some a => if w.outputs.any (fun o => o.name == a.2) then a.2 else w.focusedOutput
  | none => w.focusedOutput

/-- Model of `con_attach(workspace, content, false)` for a workspace whose
target content container sits in the first output of this name:
append to that output's content list. -/
def attachToOutput : List OutputC → String → Ws → List OutputC
  | [], _, _ => []
  | o :: rest, n, ws =>
    if o.name = n then { o with content := o.content ++ [ws] } :: rest
    else o :: attachToOutput rest n ws

/-- workspace_get, src/workspace.c:44-103. Returns the updated world,
the returned workspace, the `*created` flag, and the emitted effects.
The x_set_name call and the workspace_layout / default-orientation
fields are not modelled (no claim reads them); con_new zero-initializes
the container, so the new workspace starts with CF_NONE and empty
child lists. -/
def workspace_get (w : World) (name : String) : World × Ws × Bool × List Effect :=
  match findWsGrep w name with
  | some ws => (w, ws, false, [])
  | none =>
    let ws : Ws := {
      wid := w.freshWid
      name := name
      num := parseWorkspaceNum name
      ctype := ConType.CT_WORKSPACE
      fullscreen := CF_NONE
      nodes := []
      floating := [] }
    ({ w with outputs := attachToOutput w.outputs (selectOutputName w name) ws },
      ws, true, [Effect.ipcWorkspaceEvent "init"])

/-- Specification-side: the output workspace_get targets, per the
claim — the output named by the first matching assignment (when that
output exists), else the output of the focused container. -/
inductive SelectedOut (w : World) (name : String) : String → Prop
  | assigned (a : String × String) :
      w.wsAssignments.find? (fun x => x.1 == name) = some a →
      (∃ o ∈ w.outputs, o.name = a.2) →
      SelectedOut w name a.2
  | unassigned :
      w.wsAssignments.find? (fun x => x.1 == name) = none →
      SelectedOut w name w.focusedOutput

/-- A sample workspace and worlds for concrete instances. -/
def wsFoo : Ws := ⟨1, "foo", -1, ConType.CT_WORKSPACE, CF_OUTPUT, [], []⟩

def w3wit : World := ⟨[⟨"out0", [wsFoo]⟩], some 1, "out0", none, []⟩

/- ### Workspace switching: _workspace_show, src/workspace.c:316-380 -/

/-- The guard of src/workspace.c:320:
`workspace->name[0] == '_' && workspace->name[1] == '_'` (safe on
short names because of the C string terminator). -/
def isInternalName (s : String) : Bool :=
  match s.data with
  | '_' :: '_' :: _ => true
  | _ => false

/-- The loop of src/workspace.c:325-329 remembers, in `old`, each
sibling whose fullscreen_mode is CF_OUTPUT (so the last such sibling
wins)... -/
def findOldWs (content : List Ws) : Option Ws :=
  content.foldl
    (fun acc c => if c.fullscreen = CF_OUTPUT then some c else acc) none

/-- Continuation of the same loop: while resetting every sibling to CF_NONE; line 333 then sets
the target itself to CF_OUTPUT. Net effect on the content list: -/
def showFullscreenPass (tw : Nat) (content : List Ws) : List Ws :=
  content.map (fun c =>
    if c.wid = tw then { c with fullscreen := CF_OUTPUT }
    else { c with fullscreen := CF_NONE })

/-- Model of `con_get_output` of a workspace identity: the first output whose
content holds it (con.c walks the parent pointer; outputs are scanned
in tree order here, and identities are unique in any well-formed
world). -/
def outputOf (w : World) (wid : Nat) : Option OutputC :=
  w.outputs.find? (fun o => o.content.any (fun c => c.wid == wid))

/-- Model of `con_get_fullscreen_con(output, CF_OUTPUT)` as seen at the
workspace layer: the first workspace of the output's content whose
fullscreen_mode is CF_OUTPUT. -/
def fullscreenWsOf (o : OutputC) : Option Ws :=
  o.content.find? (fun c => c.fullscreen == CF_OUTPUT)

/-- workspace_is_visible, src/workspace.c:228-235: the workspace is
visible iff it is the fullscreen container of its output (NULL output
gives false). -/
def workspace_is_visible (w : World) (wid : Nat) : Bool :=
  match outputOf w wid with
  | none => false
  | some o =>
    match fullscreenWsOf o with
    | some fs => fs.wid == wid
    | none => false

/-- Model of `tree_close(old, DONT_KILL_WINDOW, false, false)` on an empty
workspace (tree.c is outside src/): the container is detached from its
parent content and freed. -/
def removeWs (w : World) (wid : Nat) : World :=
  { w with outputs := w.outputs.map (fun o =>
      { o with content := o.content.filter (fun c => ! (c.wid == wid)) }) }

/-- Apply `f` to the content of the first output containing the given
workspace identity (the mutation `_workspace_show` performs through
the `workspace->parent` pointer). -/
def mapContentOfOutputContaining :
    List OutputC → Nat → (List Ws → List Ws) → List OutputC
  | [], _, _ => []
  | o :: rest, wid, f =>
    if o.content.any (fun c => c.wid == wid)
    then { o with content := f o.content } :: rest
    else o :: mapContentOfOutputContaining rest wid f

/-- Model of _workspace_show, src/workspace.c:316-380, acting on the workspace
with identity `tw`. In order: the `__`-name guard; the fullscreen
pass over the target's siblings (recording `old`); the early return
when the target is already the focused workspace; recording
`previous_workspace_name` from the focused workspace; sticky-window
reassignment (which rewrites only window/mapped fields, none of which
are modelled, so it is the identity here); closing `old` when it has
no tiling and no floating children and is not visible, with the
"empty" IPC event; focusing the target (con_focus on
con_descend_focused(workspace), modelled on the focused-workspace and
focused-output registers); the pointer warp when the output changed;
the EWMH update and the "focus" IPC event. -/
def workspace_show_impl (w : World) (tw : Nat) : World × List Effect :=
  match findWsByWid w tw with
  | none => (w, [])
  | some target =>
    if isInternalName target.name then (w, [])
    else
      match outputOf w tw with
      | none => (w, [])
      | some o =>
        let old := findOldWs o.content
        let w1 : World := { w with
          outputs := mapContentOfOutputContaining w.outputs tw
            (showFullscreenPass tw) }
        if w.focusedWs = some tw then (w1, [])
        else
          let curWs := w.focusedWs.bind (fun c => findWsByWid w1 c)
          let prev := curWs.map Ws.name
          let closed : World × List Effect :=
            match old with
            | some oldWs =>
              if oldWs.nodes.isEmpty && oldWs.floating.isEmpty then
                if ! workspace_is_visible w1 oldWs.wid then
                  (removeWs w1 oldWs.wid, [Effect.ipcWorkspaceEvent "empty"])
                else (w1, [])
              else (w1, [])
            | none => (w1, [])
          let warpEff : List Effect :=
            if w.focusedOutput ≠ o.name then [Effect.warpPointer] else []
          ({ closed.1 with
              focusedWs := some tw
              focusedOutput := o.name
              prevName := prev },
            closed.2 ++ warpEff ++
              [Effect.ewmhUpdateCurrentDesktop, Effect.ipcWorkspaceEvent "focus"])

/-- workspace_show, src/workspace.c:386-388. -/
def workspace_show (w : World) (tw : Nat) : World × List Effect :=
  workspace_show_impl w tw

/-- workspace_show_by_name, src/workspace.c:394-399: look the
workspace up (creating it if needed) and show it. -/
def workspace_show_by_name (w : World) (name : String) : World × List Effect :=
  let r := workspace_get w name
  let s := workspace_show_impl r.1 r.2.1.wid
  (s.1, r.2.2.2 ++ s.2)

/-- workspace_back_and_forth, src/workspace.c:659-666: a no-op when no
previous workspace name was recorded. -/
def workspace_back_and_forth (w : World) : World × List Effect :=
  match w.prevName with
  | none => (w, [])
  | some n => workspace_show_by_name w n

/- ### Plumbing lemmas for workspace_show -/

def allWsL (outs : List OutputC) : List Ws :=
  (outs.map OutputC.content).flatten

/-- The target's output after the fullscreen pass of _workspace_show. -/
def passOutput (o : OutputC) (tw : Nat) : OutputC :=
  { o with content := showFullscreenPass tw o.content }

/-- Concrete workspaces and world for witnesses: workspace "1" is
visible and empty, workspace "2" is the switch target. -/
def oldOne : Ws := ⟨1, "1", 1, ConType.CT_WORKSPACE, CF_OUTPUT, [], []⟩

def tgtTwo : Ws := ⟨2, "2", 2, ConType.CT_WORKSPACE, CF_NONE, [], []⟩

def wC1 : World := ⟨[⟨"out0", [oldOne, tgtTwo]⟩], some 1, "out0", none, []⟩

def wsScratch : Ws := ⟨3, "__i3_scratch", -1, ConType.CT_WORKSPACE, CF_NONE, [], []⟩

def wC6 : World := ⟨[⟨"out0", [wsScratch, oldOne, tgtTwo]⟩], some 1, "out0", none, []⟩

/- ### output_get_content (output.c, src/unnamed/part_004) -/

/-- A direct child of an output container: kind tag plus identity
(outputs hold dockareas and one CT_CON content container). -/
structure ONode where
  oid : Nat
  ctype : ConType
deriving DecidableEq, Repr

/-- output_get_content (output.c):
```
TAILQ_FOREACH(child, &(output->nodes_head), nodes)
    if (child->type == CT_CON)
        return child;
ELOG(...);
assert(false);
```
`none` models the assert(false) abort on the fall-through. -/
def output_get_content : List ONode → Option ONode
  | [] => none
  | c :: rest =>
    if c.ctype = ConType.CT_CON then some c else output_get_content rest

/- ### WM_TAKE_FOCUS (C8)

Modelled from the spec: the focus-effect emitter of the X11 reactor
lives in x.c, which is not part of src/ — only the testcase
t/158-wm_take_focus.t and the `needs_take_focus` declaration of
include/data.h are. Per the spec: "when focusing a LEAF whose
descriptor has needs_take_focus set and the window does not include
globally_active input-model semantics, C7 emits a ClientMessage of
type WM_PROTOCOLS with data [WM_TAKE_FOCUS, server_time] and does not
call SetInputFocus"; a window without WM_TAKE_FOCUS gets
SetInputFocus and no WM_PROTOCOLS ClientMessage. -/

structure XWindow where
  xid : Nat
  needs_take_focus : Bool
  globally_active : Bool
deriving DecidableEq, Repr

inductive XEffect where
  | clientMessage (window : Nat) (msgType : String) (format : Nat)
      (data : List Nat)
  | setInputFocus (window : Nat)
deriving DecidableEq, Repr

/-- Modelled from the spec: focusing a leaf window emits either the
WM_TAKE_FOCUS ClientMessage (format 32, data [WM_TAKE_FOCUS atom,
server time]) or a SetInputFocus request. -/
def focusLeafEffects (win : XWindow) (wmTakeFocusAtom serverTime : Nat) :
    List XEffect :=
  if win.needs_take_focus && ! win.globally_active then
    [XEffect.clientMessage win.xid "WM_PROTOCOLS" 32 [wmTakeFocusAtom, serverTime]]
  else
    [XEffect.setInputFocus win.xid]

/- ### create_workspace_on_output, src/workspace.c:111-219 -/

/-- Model of `strncasecmp(t, pat, strlen(pat)) == 0` on a char list. -/
def ciStarts (pat : String) (t : List Char) : Bool :=
  (t.take pat.data.length).map lowerChar == pat.data.map lowerChar

/-- The binding scan of create_workspace_on_output,
src/workspace.c:121-147: commands shorter than `"workspace "` or not
starting case-insensitively with `"workspace"` are skipped; the
candidate target is the text from offset 10; targets that are the
next/prev/next_on_output/prev_on_output/number/back_and_forth/current
commands are skipped; a leading double quote is skipped and a trailing
double quote is stripped (the C code indexes name[strlen-1], which we
guard against the empty name). -/
def bindingTarget (cmd : String) : Option String :=
  if cmd.data.length < 10 then none
  else if ! ((cmd.data.take 9).map lowerChar == "workspace".data.map lowerChar)
  then none
  else
    let target := cmd.data.drop 10
    if ciStarts "next" target || ciStarts "prev" target ||
        ciStarts "next_on_output" target || ciStarts "prev_on_output" target ||
        ciStarts "number" target || ciStarts "back_and_forth" target ||
        ciStarts "current" target then none
    else
      let t1 := match target with
        | '"' :: r => r
        | _ => target
      let t2 := if t1.getLast? = some '"' then t1.dropLast else t1
      some ⟨t2⟩

/-- Model of `current != NULL` after the lookup loop of
src/workspace.c:166-168/198-200: some output holds a workspace whose
name matches case-insensitively. -/
def existsWsCI (w : World) (name : String) : Bool :=
  w.outputs.any (fun o => o.content.any (fun c => strCaseEq c.name name))

/-- The binding loop (src/workspace.c:121-186) as a recursion over the
bindings' command strings, carrying the current `ws->name`. A binding
is skipped when its target does not parse, when an assignment binds
the candidate name to a *different* output, or when a workspace of
that name already exists; otherwise the loop breaks with the candidate
name and its parsed number (the same strtol block as workspace_get).
Result: the final name and `some num` when the loop broke
(`exists == false`), `none` when it ran out (`exists` still true). -/
def scanBindings (w : World) (outName : String) :
    List String → String → String × Option Int
  | [], name0 => (name0, none)
  | cmd :: rest, name0 =>
    match bindingTarget cmd with
    | none => scanBindings w outName rest name0
    | some cand =>
      if w.wsAssignments.any (fun a => a.1 == cand && ! (a.2 == outName)) then
        scanBindings w outName rest cand
      else if existsWsCI w cand then
        scanBindings w outName rest cand
      else
        (cand, some (parseWorkspaceNum cand))

/-- Decimal rendering of a positive C int (`sasprintf("%d", c)`). -/
def natToDecAux (n : Nat) : List Char :=
  if n < 10 then [Nat.digitChar n]
  else natToDecAux (n / 10) ++ [Nat.digitChar (n % 10)]
termination_by n
decreasing_by exact Nat.div_lt_self (by omega) (by omega)

def natToDec (n : Nat) : String := ⟨natToDecAux n⟩

/-- The `while (exists)` loop of src/workspace.c:192-204, counting `c`
upwards and testing `"%d"` names; the fuel bounds the iterations and
`none` models divergence (which the pigeonhole argument below rules
out for sufficient fuel). -/
def findFreeNum (w : World) : Nat → Nat → Option Nat
  | 0, _ => none
  | fuel + 1, c =>
    if existsWsCI w (natToDec (c + 1)) then findFreeNum w fuel (c + 1)
    else some (c + 1)

/-- create_workspace_on_output, src/workspace.c:111-219: try the
binding targets; when none is free, fall back to the lowest unused
positive number. The workspace is attached to the given output's
content (con_attach) and made visible there (CF_OUTPUT, line 213);
x_set_name / workspace_layout / orientation are not modelled. -/
def create_workspace_on_output (w : World) (outName : String)
    (bindings : List String) : Option (World × Ws) :=
  let scan := scanBindings w outName bindings ""
  match scan.2 with
  | some num =>
    let ws : Ws := ⟨w.freshWid, scan.1, num, ConType.CT_WORKSPACE,
      CF_OUTPUT, [], []⟩
    some ({ w with outputs := attachToOutput w.outputs outName ws }, ws)
  | none =>
    match findFreeNum w (w.allWs.length + 1) 0 with
    | some c =>
      let ws : Ws := ⟨w.freshWid, natToDec c, (c : Int), ConType.CT_WORKSPACE,
        CF_OUTPUT, [], []⟩
      some ({ w with outputs := attachToOutput w.outputs outName ws }, ws)
    | none => none

/-- Numeric value of a digit list (left inverse of the rendering). -/
def decValList (ds : List Char) : Nat :=
  ds.foldl (fun a c => a * 10 + (c.toNat - 48)) 0

def wC5 : World := ⟨[⟨"out0", [oldOne]⟩], some 1, "out0", none, []⟩

/- ### workspace_next, src/workspace.c:405-469 -/

/-- The outputs scanned by the traversal: `croot`'s children except
the internal `__`-named ones (the `continue` at the top of each loop). -/
def niOuts (w : World) : List OutputC :=
  w.outputs.filter (fun o => ! (isInternalName o.name))

/-- One step of the numbered phase of workspace_next
(src/workspace.c:427-428): `if (current->num < child->num &&
(!next || child->num < next->num)) next = child;`. -/
def nextNumStep (curNum : Int) (acc : Option Ws) (child : Ws) : Option Ws :=
  match acc with
  | none => if curNum < child.num then some child else none
  | some nx =>
    if curNum < child.num ∧ child.num < nx.num then some child else some nx

/-- The numbered phase (src/workspace.c:415-430): per non-internal
output, scan the content, `break`ing at the first named workspace
(`child->num == -1`); the type filter `child->type != CT_WORKSPACE`
is the identity here since content children are workspaces. -/
def phase1 (outs : List OutputC) (curNum : Int) : Option Ws :=
  outs.foldl
    (fun acc o =>
      (o.content.takeWhile (fun c => ! (c.num == -1))).foldl
        (nextNumStep curNum) acc)
    none

/-- Model of `TAILQ_NEXT(current, nodes)`: the sibling right after the
workspace with the given identity. -/
def nextSibling : List Ws → Nat → Option Ws
  | [], _ => none
  | c :: rest, wid =>
    if c.wid = wid then rest.head? else nextSibling rest wid

/-- The named phase over one content list (src/workspace.c:440-449):
carries `found_current`; returns at the first named child once
`current->num != -1 || found_current` holds; pointer comparison
`child == current` is identity comparison. -/
def phase2L (current : Ws) : List Ws → Bool → Option Ws × Bool
  | [], fc => (none, fc)
  | c :: rest, fc =>
    if c.wid = current.wid then phase2L current rest true
    else if c.num = -1 ∧ (current.num ≠ -1 ∨ fc = true) then (some c, fc)
    else phase2L current rest fc

/-- The named phase over the non-internal outputs (the `goto
workspace_next_end` on a hit). -/
def phase2Outs (current : Ws) : List OutputC → Bool → Option Ws
  | [], _ => none
  | o :: rest, fc =>
    match phase2L current o.content fc with
    | (some c, _) => some c
    | (none, fc2) => phase2Outs current rest fc2

/-- One step of the wrap-around phase (src/workspace.c:462-463):
`if (!next || (child->num != -1 && child->num < next->num))
next = child;`. -/
def phase3Step (acc : Option Ws) (child : Ws) : Option Ws :=
  match acc with
  | none => some child
  | some nx =>
    if child.num ≠ -1 ∧ child.num < nx.num then some child else some nx

/-- The wrap-around phase (src/workspace.c:454-466). -/
def phase3 (outs : List OutputC) : Option Ws :=
  outs.foldl (fun acc o => o.content.foldl phase3Step acc) none

/-- workspace_next, src/workspace.c:405-469: `current` is the focused
workspace; a named current tries its direct next sibling, a numbered
current scans for the smallest larger number; then the named phase;
then the wrap-around phase. -/
def workspace_next (w : World) : Option Ws :=
  match w.focusedWs.bind (fun c => findWsByWid w c) with
  | none => none
  | some current =>
    let n1 : Option Ws :=
      if current.num = -1 then
        match outputOf w current.wid with
        | some o => nextSibling o.content current.wid
        | none => none
      else
        phase1 (niOuts w) current.num
    let n2 : Option Ws :=
      match n1 with
      | some nx => some nx
      | none => phase2Outs current (niOuts w) false
    match n2 with
    | some nx => some nx
    | none => phase3 (niOuts w)

/- ### Specification-side notions for the traversal -/

/-- All workspaces of non-internal outputs, in tree order. -/
def allNI (w : World) : List Ws := allWsL (niOuts w)

/-- The elements strictly after the (first) workspace with this
identity. -/
def afterIn (l : List Ws) (wid : Nat) : List Ws :=
  (l.dropWhile (fun c => ! (c.wid == wid))).tail

/-- A content list with numbered workspaces before named ones (the
sorted insertion order i3 maintains for workspaces). -/
def NumsBeforeNames (content : List Ws) : Prop :=
  List.Pairwise (fun a b => a.num = -1 → b.num = -1) content

def wsNum1B : Ws := ⟨2, "1", 1, ConType.CT_WORKSPACE, CF_OUTPUT, [], []⟩

def wC4 : World := ⟨[⟨"A", [wsFoo]⟩, ⟨"B", [wsNum1B]⟩], some 1, "A", none, []⟩

/- ### Theorems -/

theorem toInt32_eq_self (v : Int) (h0 : 0 ≤ v) (h1 : v < 2 ^ 31) :
    toInt32 v = v := by
  unfold toInt32
  omega

theorem strtol10_of_leadingDecInt (s : List Char) (v : Int)
    (h : leadingDecInt ⟨s⟩ = some v) :
    strtol10 s = ⟨max LONG_MIN (min LONG_MAX v), true⟩ := by
  simp only [leadingDecInt] at h
  simp only [strtol10]
  split at h
  · exact absurd h (by simp)
  · rename_i hne
    rw [if_neg hne]
    injection h with h
    rw [h]

theorem strtol10_of_no_leading (s : List Char)
    (h : leadingDecInt ⟨s⟩ = none) :
    strtol10 s = ⟨0, false⟩ := by
  simp only [leadingDecInt] at h
  simp only [strtol10]
  split at h
  · rename_i he
    rw [if_pos he]
  · exact absurd h (by simp)

/-- Claim C2, amended. The `num` field of a workspace newly created by
`workspace_get(name)` is determined by the *leading* decimal of the
name, not by the whole name: when the name (after optional whitespace
and an optional sign) begins with a digit run of non-negative value
`v < 2^31`, `num = v`; when there is no leading digit run at all, or
the leading value is negative, `num = -1`. -/
theorem workspace_num_from_leading_decimal (name : String) :
    (∀ v : Int, leadingDecInt name = some v → 0 ≤ v → v < 2 ^ 31 →
      parseWorkspaceNum name = v) ∧
    (leadingDecInt name = none → parseWorkspaceNum name = -1) ∧
    (∀ v : Int, leadingDecInt name = some v → v < 0 →
      parseWorkspaceNum name = -1) := by
  refine ⟨?_, ?_, ?_⟩
  · intro v h h0 h1
    have hs : strtol10 name.data = ⟨max LONG_MIN (min LONG_MAX v), true⟩ :=
      strtol10_of_leadingDecInt name.data v (by cases name; exact h)
    have hclamp : max LONG_MIN (min LONG_MAX v) = v := by
      simp only [LONG_MIN, LONG_MAX]; omega
    simp only [parseWorkspaceNum, hs, hclamp]
    rw [if_neg]
    · exact toInt32_eq_self v h0 h1
    · simp only [LONG_MIN, LONG_MAX]
      push_neg
      refine ⟨by omega, by omega, by omega, by simp⟩
  · intro h
    have hs : strtol10 name.data = ⟨0, false⟩ :=
      strtol10_of_no_leading name.data (by cases name; exact h)
    simp [parseWorkspaceNum, hs]
  · intro v h hv
    have hs : strtol10 name.data = ⟨max LONG_MIN (min LONG_MAX v), true⟩ :=
      strtol10_of_leadingDecInt name.data v (by cases name; exact h)
    simp only [parseWorkspaceNum, hs]
    rw [if_pos]
    simp only [LONG_MIN, LONG_MAX]
    omega

/-- Witness for `workspace_num_from_leading_decimal` at name `"12"`. -/
theorem workspace_num_from_leading_decimal_witness :
    parseWorkspaceNum "12" = 12 :=
  (workspace_num_from_leading_decimal "12").1 12 (by decide) (by decide)
    (by decide)

/-- Claim C2, counterexample. The claim states that `num = -1` for every
name that is *not* a non-negative decimal. The name `"5abc"` is not a
non-negative decimal, yet the code parses its leading digit run and
sets `num = 5`. -/
theorem workspace_num_claim_counterexample :
    ¬ (∀ name : String, isNonNegDecimal name = false →
        parseWorkspaceNum name = -1) := by
  intro h
  have h5 := h "5abc" (by decide)
  have : parseWorkspaceNum "5abc" = 5 := by decide
  omega

theorem anyUrgent_eq_any (l : List Con) :
    anyUrgent l = l.any (fun c => c.urgent || get_urgency_flag c) := by
  induction l with
  | nil => simp [anyUrgent]
  | cons c rest ih => simp [anyUrgent, ih]

theorem get_urgency_flag_iff_aux :
    ∀ n, ∀ p : Con, sizeOf p ≤ n →
      (get_urgency_flag p = true ↔ ∃ c, StrictDesc c p ∧ c.urgent = true) := by
  intro n
  induction n with
  | zero =>
    intro p hp
    cases p with
    | mk u ns fs => simp at hp
  | succ n ih =>
    intro p hp
    cases p with
    | mk u ns fs =>
      have hsz : ∀ c : Con, c ∈ ns ∨ c ∈ fs → sizeOf c ≤ n := by
        intro c hc
        have hlt : sizeOf c < sizeOf (Con.mk u ns fs) := by
          rcases hc with hc | hc
          · have := List.sizeOf_lt_of_mem hc
            simp only [Con.mk.sizeOf_spec]
            omega
          · have := List.sizeOf_lt_of_mem hc
            simp only [Con.mk.sizeOf_spec]
            omega
        omega
      constructor
      · intro h
        simp only [get_urgency_flag, anyUrgent_eq_any, Bool.or_eq_true,
          List.any_eq_true] at h
        rcases h with ⟨c, hc, hcu⟩ | ⟨c, hc, hcu⟩ <;>
          rcases hcu with hcu | hcu
        · exact ⟨c, StrictDesc.here_node (by simpa [Con.nodes] using hc), hcu⟩
        · rcases (ih c (hsz c (Or.inl hc))).mp hcu with ⟨d, hd, hdu⟩
          exact ⟨d, StrictDesc.via_node (by simpa [Con.nodes] using hc) hd, hdu⟩
        · exact ⟨c, StrictDesc.here_float (by simpa [Con.floating] using hc), hcu⟩
        · rcases (ih c (hsz c (Or.inr hc))).mp hcu with ⟨d, hd, hdu⟩
          exact ⟨d, StrictDesc.via_float (by simpa [Con.floating] using hc) hd, hdu⟩
      · rintro ⟨c, hdesc, hurg⟩
        simp only [get_urgency_flag, anyUrgent_eq_any, Bool.or_eq_true,
          List.any_eq_true]
        cases hdesc with
        | here_node hc =>
          exact Or.inl ⟨c, by simpa [Con.nodes] using hc, by simp [hurg]⟩
        | here_float hc =>
          exact Or.inr ⟨c, by simpa [Con.floating] using hc, by simp [hurg]⟩
        | via_node hd hdesc =>
          rename_i d
          have hmem : d ∈ ns := by simpa [Con.nodes] using hd
          have : get_urgency_flag d = true :=
            (ih d (hsz d (Or.inl hmem))).mpr ⟨c, hdesc, hurg⟩
          exact Or.inl ⟨d, hmem, by simp [this]⟩
        | via_float hd hdesc =>
          rename_i d
          have hmem : d ∈ fs := by simpa [Con.floating] using hd
          have : get_urgency_flag d = true :=
            (ih d (hsz d (Or.inr hmem))).mpr ⟨c, hdesc, hurg⟩
          exact Or.inr ⟨d, hmem, by simp [this]⟩

theorem get_urgency_flag_iff (p : Con) :
    get_urgency_flag p = true ↔ ∃ c, StrictDesc c p ∧ c.urgent = true :=
  get_urgency_flag_iff_aux (sizeOf p) p le_rfl

theorem withUrgent_urgent (ws : Con) (b : Bool) :
    (ws.withUrgent b).urgent = b := by
  cases ws; rfl

/-- Claim C7, amended. `workspace_update_urgent_flag(ws)` sets
`ws.urgent` to true iff some strict descendant of `ws` (through tiling
or floating children) is urgent, and emits the workspace IPC event
with change `"urgent"` iff the recomputed value differs from the old
one; it does *not* request a redraw. -/
theorem update_urgent_flag_spec (ws : Con) :
    ((workspace_update_urgent_flag ws).1.urgent = true ↔
      ∃ c, StrictDesc c ws ∧ c.urgent = true) ∧
    (Effect.ipcWorkspaceEvent "urgent" ∈ (workspace_update_urgent_flag ws).2 ↔
      (workspace_update_urgent_flag ws).1.urgent ≠ ws.urgent) ∧
    Effect.redraw ∉ (workspace_update_urgent_flag ws).2 := by
  have hu : (workspace_update_urgent_flag ws).1.urgent = get_urgency_flag ws := by
    simp only [workspace_update_urgent_flag]
    split <;> simp [withUrgent_urgent]
  refine ⟨hu ▸ get_urgency_flag_iff ws, ?_, ?_⟩
  · simp only [workspace_update_urgent_flag]
    split <;> rename_i hcond <;>
      simp_all [withUrgent_urgent, ne_comm]
  · simp only [workspace_update_urgent_flag]
    split <;> simp

/-- Claim C7, counterexample. The claim additionally requires a redraw
request whenever the recomputed urgency differs from the old value;
the code emits only the IPC event. At the workspace with a single
urgent tiling child the flag flips from false to true yet no redraw
effect is emitted. -/
theorem update_urgent_flag_claim_counterexample :
    ¬ (∀ ws : Con,
        (workspace_update_urgent_flag ws).1.urgent ≠ ws.urgent →
          Effect.ipcWorkspaceEvent "urgent" ∈ (workspace_update_urgent_flag ws).2 ∧
          Effect.redraw ∈ (workspace_update_urgent_flag ws).2) := by
  intro h
  have hws : workspace_update_urgent_flag (Con.mk false [Con.mk true [] []] []) =
      (Con.mk true [Con.mk true [] []] [], [Effect.ipcWorkspaceEvent "urgent"]) := by
    simp [workspace_update_urgent_flag, get_urgency_flag, anyUrgent,
      Con.withUrgent, Con.urgent]
  have := h (Con.mk false [Con.mk true [] []] [])
  rw [hws] at this
  simp [Con.urgent] at this

/- ### Lemmas about the workspace lookup and attach -/

theorem mem_allWs_iff (w : World) (ws : Ws) :
    ws ∈ w.allWs ↔ ∃ o ∈ w.outputs, ws ∈ o.content := by
  simp only [World.allWs, List.mem_flatten, List.mem_map]
  constructor
  · rintro ⟨l, ⟨o, ho, rfl⟩, hin⟩
    exact ⟨o, ho, hin⟩
  · rintro ⟨o, ho, hin⟩
    exact ⟨o.content, ⟨o, ho, rfl⟩, hin⟩

theorem mem_allWs_wid_inj (w : World) (hnd : widsNodup w)
    (a b : Ws) (ha : a ∈ w.allWs) (hb : b ∈ w.allWs)
    (hw : a.wid = b.wid) : a = b :=
  List.inj_on_of_nodup_map hnd ha hb hw

theorem foldGrep_some (name : String) (outs : List OutputC)
    (acc : Option Ws) (ws : Ws)
    (h : outs.foldl
      (fun acc o =>
        match o.content.find? (fun c => strCaseEq c.name name) with
        | some c => some c
        | none => acc) acc = some ws) :
    acc = some ws ∨
      ∃ o ∈ outs, ws ∈ o.content ∧ strCaseEq ws.name name = true := by
  induction outs generalizing acc with
  | nil => exact Or.inl h
  | cons o rest ih =>
    simp only [List.foldl_cons] at h
    rcases ih _ h with hacc | ⟨p, hp, hmem, hname⟩
    · revert hacc
      split
      · rename_i c hfind
        intro hacc
        injection hacc with hacc
        subst hacc
        have hpc := List.find?_some hfind
        exact Or.inr ⟨o, by simp, List.mem_of_find?_eq_some hfind,
          by simpa using hpc⟩
      · intro hacc
        exact Or.inl hacc
    · exact Or.inr ⟨p, by simp [hp], hmem, hname⟩

theorem foldGrep_isSome_of_acc (name : String) (outs : List OutputC)
    (x : Ws) :
    ∃ ws, outs.foldl
      (fun acc o =>
        match o.content.find? (fun c => strCaseEq c.name name) with
        | some c => some c
        | none => acc) (some x) = some ws := by
  induction outs generalizing x with
  | nil => exact ⟨x, rfl⟩
  | cons o rest ih =>
    simp only [List.foldl_cons]
    split
    · rename_i c hfind
      exact ih c
    · exact ih x

theorem foldGrep_isSome (name : String) (outs : List OutputC)
    (acc : Option Ws)
    (h : ∃ o ∈ outs, ∃ c ∈ o.content, strCaseEq c.name name = true) :
    ∃ ws, outs.foldl
      (fun acc o =>
        match o.content.find? (fun c => strCaseEq c.name name) with
        | some c => some c
        | none => acc) acc = some ws := by
  induction outs generalizing acc with
  | nil => simp at h
  | cons o rest ih =>
    simp only [List.foldl_cons]
    rcases h with ⟨p, hp, c, hc, hname⟩
    rcases List.mem_cons.mp hp with rfl | hp
    · have hfind : ∃ d, p.content.find? (fun c => strCaseEq c.name name) = some d := by
        have : (p.content.find? (fun c => strCaseEq c.name name)).isSome := by
          rw [List.find?_isSome]
          exact ⟨c, hc, hname⟩
        exact Option.isSome_iff_exists.mp this
      rcases hfind with ⟨d, hd⟩
      rw [hd]
      exact foldGrep_isSome_of_acc name rest d
    · split
      · rename_i d hd
        exact foldGrep_isSome_of_acc name rest d
      · exact ih acc ⟨p, hp, c, hc, hname⟩

theorem findWsGrep_some (w : World) (name : String) (ws : Ws)
    (h : findWsGrep w name = some ws) :
    ws ∈ w.allWs ∧ strCaseEq ws.name name = true := by
  rcases foldGrep_some name w.outputs none ws h with hacc | ⟨o, ho, hmem, hname⟩
  · exact absurd hacc (by simp)
  · exact ⟨(mem_allWs_iff w ws).mpr ⟨o, ho, hmem⟩, hname⟩

theorem findWsGrep_eq_target (w : World) (name : String) (target : Ws)
    (hmem : target ∈ w.allWs) (hname : strCaseEq target.name name = true)
    (huniq : ∀ c ∈ w.allWs, strCaseEq c.name name = true → c.wid = target.wid)
    (hnd : widsNodup w) :
    findWsGrep w name = some target := by
  rcases (mem_allWs_iff w target).mp hmem with ⟨o, ho, hin⟩
  rcases foldGrep_isSome name w.outputs none ⟨o, ho, target, hin, hname⟩
    with ⟨ws, hws⟩
  have hprop := findWsGrep_some w name ws hws
  have : ws = target :=
    mem_allWs_wid_inj w hnd ws target hprop.1 hmem
      (huniq ws hprop.1 hprop.2)
  rw [← this]
  exact hws

theorem attachToOutput_decomp (outs : List OutputC) (n : String) (ws : Ws)
    (h : ∃ o ∈ outs, o.name = n) :
    ∃ pre o post, outs = pre ++ o :: post ∧ o.name = n ∧
      (∀ p ∈ pre, p.name ≠ n) ∧
      attachToOutput outs n ws =
        pre ++ ({ o with content := o.content ++ [ws] } : OutputC) :: post := by
  induction outs with
  | nil => simp at h
  | cons o rest ih =>
    by_cases ho : o.name = n
    · refine ⟨[], o, rest, by simp, ho, by simp, ?_⟩
      simp [attachToOutput, ho]
    · have hrest : ∃ p ∈ rest, p.name = n := by
        rcases h with ⟨p, hp, hpn⟩
        rcases List.mem_cons.mp hp with rfl | hp
        · exact absurd hpn ho
        · exact ⟨p, hp, hpn⟩
      rcases ih hrest with ⟨pre, q, post, hdec, hqn, hpre, hatt⟩
      refine ⟨o :: pre, q, post, by simp [hdec], hqn, ?_, ?_⟩
      · intro p hp
        rcases List.mem_cons.mp hp with rfl | hp
        · exact ho
        · exact hpre p hp
      · simp [attachToOutput, ho, hatt]

theorem selectOutputName_of_selected (w : World) (name tname : String)
    (h : SelectedOut w name tname) : selectOutputName w name = tname := by
  cases h with
  | assigned a hfind hex =>
    simp only [selectOutputName, hfind]
    rw [if_pos]
    rcases hex with ⟨o, ho, hon⟩
    rw [List.any_eq_true]
    exact ⟨o, ho, by simp [hon]⟩
  | unassigned hfind =>
    simp only [selectOutputName, hfind]

/-- Claim C3, amended. workspace_get's name matching is ASCII
case-insensitive (strcasecmp), not exact. When a workspace whose name
case-insensitively matches `name` exists (and is unique), workspace_get
returns it, sets `created = false`, emits nothing and leaves the world
unchanged. When no workspace case-insensitively matches, it creates a
new CT_WORKSPACE container named exactly `name`, appends it to the
content of the selected output — the output named by the first
matching assignment, or the focused output when no assignment
matches — sets `created = true`, and emits the workspace IPC event
with change "init". -/
theorem workspace_get_spec (w : World) (name : String) :
    (∀ target ∈ w.allWs, strCaseEq target.name name = true →
      (∀ c ∈ w.allWs, strCaseEq c.name name = true → c.wid = target.wid) →
      widsNodup w →
      workspace_get w name = (w, target, false, [])) ∧
    (∀ tname : String, SelectedOut w name tname →
      (∃ o ∈ w.outputs, o.name = tname) →
      (∀ c ∈ w.allWs, strCaseEq c.name name = false) →
      (workspace_get w name).2.2.1 = true ∧
      (workspace_get w name).2.2.2 = [Effect.ipcWorkspaceEvent "init"] ∧
      (workspace_get w name).2.1.name = name ∧
      (workspace_get w name).2.1.ctype = ConType.CT_WORKSPACE ∧
      (workspace_get w name).2.1.num = parseWorkspaceNum name ∧
      ∃ pre o post,
        w.outputs = pre ++ o :: post ∧ o.name = tname ∧
        (workspace_get w name).1.outputs =
          pre ++ ({ o with content :=
            o.content ++ [(workspace_get w name).2.1] } : OutputC) :: post ∧
        (workspace_get w name).1.focusedWs = w.focusedWs ∧
        (workspace_get w name).1.prevName = w.prevName) := by
  constructor
  · intro target hmem hname huniq hnd
    have hfg := findWsGrep_eq_target w name target hmem hname huniq hnd
    simp [workspace_get, hfg]
  · intro tname hsel hex hno
    have hnone : findWsGrep w name = none := by
      cases hfg : findWsGrep w name with
      | none => rfl
      | some ws =>
        have hprop := findWsGrep_some w name ws hfg
        rw [hno ws hprop.1] at hprop
        exact absurd hprop.2 (by simp)
    have hselname := selectOutputName_of_selected w name tname hsel
    simp only [workspace_get, hnone]
    refine ⟨trivial, trivial, trivial, trivial, trivial, ?_⟩
    rw [hselname]
    rcases attachToOutput_decomp w.outputs tname _ hex with
      ⟨pre, o, post, hdec, hon, _, hatt⟩
    exact ⟨pre, o, post, hdec, hon, hatt, trivial, trivial⟩

/-- Witness for `workspace_get_spec`: on a world holding only the
workspace "foo", looking up "FOO" returns it without creating, and
looking up "web" creates. -/
theorem workspace_get_spec_witness :
    workspace_get w3wit "FOO" = (w3wit, wsFoo, false, []) ∧
    (workspace_get w3wit "web").2.2.1 = true := by
  constructor
  · exact (workspace_get_spec w3wit "FOO").1 wsFoo
      (by simp [w3wit, World.allWs, wsFoo])
      (by decide)
      (by
        intro c hc hcn
        simp [w3wit, World.allWs] at hc
        rw [hc])
      (by simp [widsNodup, w3wit, World.allWs])
  · exact (((workspace_get_spec w3wit "web").2 "out0"
      (SelectedOut.unassigned rfl)
      ⟨⟨"out0", [wsFoo]⟩, by simp [w3wit], rfl⟩
      (by
        intro c hc
        simp [w3wit, World.allWs] at hc
        rw [hc]
        decide))).1

/-- Claim C3, counterexample. The claim demands creation whenever no
workspace *with that name* exists. In a world holding only a workspace
named "foo", looking up "FOO" does not create (strcasecmp matches the
existing workspace), so `created` is false. -/
theorem workspace_get_claim_counterexample :
    ¬ (∀ (w : World) (name : String),
        (∀ ws ∈ w.allWs, ws.name ≠ name) →
          (workspace_get w name).2.2.1 = true) := by
  intro h
  have hno : ∀ ws ∈ w3wit.allWs, ws.name ≠ "FOO" := by
    intro ws hws
    simp [w3wit, World.allWs] at hws
    rw [hws]
    decide
  have hcl := h w3wit "FOO" hno
  have hval : (workspace_get w3wit "FOO").2.2.1 = false := by decide
  rw [hval] at hcl
  exact absurd hcl (by simp)

theorem allWsL_cons (o : OutputC) (rest : List OutputC) :
    allWsL (o :: rest) = o.content ++ allWsL rest := by
  simp [allWsL]

theorem allWs_eq_allWsL (w : World) : w.allWs = allWsL w.outputs := rfl

theorem findWsByWid_some (w : World) (tw : Nat) (c : Ws)
    (h : findWsByWid w tw = some c) : c ∈ w.allWs ∧ c.wid = tw := by
  unfold findWsByWid at h
  have h1 := List.mem_of_find?_eq_some h
  have h2 := List.find?_some h
  exact ⟨h1, by simpa using h2⟩

theorem findWsByWid_eq (w : World) (target : Ws)
    (hmem : target ∈ w.allWs)
    (huniq : ∀ c ∈ w.allWs, c.wid = target.wid → c = target) :
    findWsByWid w target.wid = some target := by
  unfold findWsByWid
  cases hf : w.allWs.find? (fun c => c.wid == target.wid) with
  | none =>
    exfalso
    have := List.find?_eq_none.mp hf target hmem
    simp at this
  | some c =>
    have h1 := List.mem_of_find?_eq_some hf
    have h2 := List.find?_some hf
    have hct : c = target := huniq c h1 (by simpa using h2)
    rw [hct]

theorem find?_first {α : Type} (p : α → Bool) (pre : List α) (o : α)
    (post : List α) (hpre : ∀ x ∈ pre, p x = false) (ho : p o = true) :
    (pre ++ o :: post).find? p = some o := by
  induction pre with
  | nil =>
    rw [List.nil_append]
    exact List.find?_cons_of_pos post ho
  | cons x rest ih =>
    rw [List.cons_append, List.find?_cons_of_neg]
    · exact ih (fun y hy => hpre y (by simp [hy]))
    · simp [hpre x (by simp)]

theorem outputOf_first (w : World) (tw : Nat) (pre : List OutputC)
    (o : OutputC) (post : List OutputC)
    (houts : w.outputs = pre ++ o :: post)
    (hpre : ∀ p ∈ pre, ∀ c ∈ p.content, c.wid ≠ tw)
    (ho : ∃ c ∈ o.content, c.wid = tw) :
    outputOf w tw = some o := by
  unfold outputOf
  rw [houts]
  apply find?_first
  · intro p hp
    rw [List.any_eq_false]
    intro c hc
    simp [hpre p hp c hc]
  · rcases ho with ⟨c, hc, hcw⟩
    rw [List.any_eq_true]
    exact ⟨c, hc, by simp [hcw]⟩

theorem outputOf_some_mem (w : World) (tw : Nat) (o : OutputC)
    (h : outputOf w tw = some o) :
    o ∈ w.outputs ∧ ∃ c ∈ o.content, c.wid = tw := by
  unfold outputOf at h
  refine ⟨List.mem_of_find?_eq_some h, ?_⟩
  have h2 := List.find?_some h
  rw [List.any_eq_true] at h2
  rcases h2 with ⟨c, hc, hcw⟩
  exact ⟨c, hc, by simpa using hcw⟩

theorem mapContent_first (pre : List OutputC) (o : OutputC)
    (post : List OutputC) (tw : Nat) (f : List Ws → List Ws)
    (hpre : ∀ p ∈ pre, ∀ c ∈ p.content, c.wid ≠ tw)
    (ho : ∃ c ∈ o.content, c.wid = tw) :
    mapContentOfOutputContaining (pre ++ o :: post) tw f =
      pre ++ ({ o with content := f o.content } : OutputC) :: post := by
  induction pre with
  | nil =>
    simp only [List.nil_append, mapContentOfOutputContaining]
    rw [if_pos]
    rcases ho with ⟨c, hc, hcw⟩
    rw [List.any_eq_true]
    exact ⟨c, hc, by simp [hcw]⟩
  | cons x rest ih =>
    simp only [List.cons_append, mapContentOfOutputContaining]
    rw [if_neg]
    · rw [List.append_eq, ih (fun p hp => hpre p (by simp [hp]))]
    · intro hx
      rw [List.any_eq_true] at hx
      rcases hx with ⟨c, hc, hcw⟩
      exact absurd (by simpa using hcw) (hpre x (by simp) c hc)

theorem findOldWs_aux_const (l : List Ws) (old : Ws)
    (h : ∀ c ∈ l, c.fullscreen = CF_OUTPUT → c = old) :
    l.foldl (fun acc c => if c.fullscreen = CF_OUTPUT then some c else acc)
      (some old) = some old := by
  induction l with
  | nil => rfl
  | cons c rest ih =>
    simp only [List.foldl_cons]
    by_cases hc : c.fullscreen = CF_OUTPUT
    · rw [if_pos hc, h c (by simp) hc]
      exact ih (fun d hd hdf => h d (by simp [hd]) hdf)
    · rw [if_neg hc]
      exact ih (fun d hd hdf => h d (by simp [hd]) hdf)

theorem findOldWs_eq_unique (content : List Ws) (old : Ws)
    (hmem : old ∈ content) (hfs : old.fullscreen = CF_OUTPUT)
    (huniq : ∀ c ∈ content, c.fullscreen = CF_OUTPUT → c = old) :
    findOldWs content = some old := by
  unfold findOldWs
  suffices H : ∀ (l : List Ws) (acc : Option Ws), old ∈ l →
      (∀ c ∈ l, c.fullscreen = CF_OUTPUT → c = old) →
      l.foldl (fun acc c => if c.fullscreen = CF_OUTPUT then some c else acc)
        acc = some old by
    exact H content none hmem huniq
  intro l
  induction l with
  | nil => intro acc hm; simp at hm
  | cons c rest ih =>
    intro acc hm hu
    simp only [List.foldl_cons]
    by_cases hc : c.fullscreen = CF_OUTPUT
    · rw [if_pos hc, hu c (by simp) hc]
      exact findOldWs_aux_const rest old (fun d hd hdf => hu d (by simp [hd]) hdf)
    · rw [if_neg hc]
      have hrest : old ∈ rest := by
        rcases List.mem_cons.mp hm with rfl | hm2
        · exact absurd hfs hc
        · exact hm2
      exact ih acc hrest (fun d hd hdf => hu d (by simp [hd]) hdf)

theorem findOldWs_some (content : List Ws) (x : Ws)
    (h : findOldWs content = some x) :
    x ∈ content ∧ x.fullscreen = CF_OUTPUT := by
  unfold findOldWs at h
  suffices H : ∀ (l : List Ws) (acc : Option Ws),
      l.foldl (fun acc c => if c.fullscreen = CF_OUTPUT then some c else acc)
        acc = some x →
      acc = some x ∨ (x ∈ l ∧ x.fullscreen = CF_OUTPUT) by
    rcases H content none h with hacc | h2
    · exact absurd hacc (by simp)
    · exact h2
  intro l
  induction l with
  | nil => intro acc hacc; exact Or.inl hacc
  | cons c rest ih =>
    intro acc hacc
    simp only [List.foldl_cons] at hacc
    rcases ih _ hacc with hstep | ⟨hm, hfs⟩
    · by_cases hc : c.fullscreen = CF_OUTPUT
      · rw [if_pos hc] at hstep
        injection hstep with hstep
        subst hstep
        exact Or.inr ⟨by simp, hc⟩
      · rw [if_neg hc] at hstep
        exact Or.inl hstep
    · exact Or.inr ⟨by simp [hm], hfs⟩

theorem fullscreenWsOf_after_pass (tw : Nat) (content : List Ws) (target : Ws)
    (hmem : target ∈ content) (htw : target.wid = tw)
    (huniq : ∀ c ∈ content, c.wid = tw → c = target) :
    (showFullscreenPass tw content).find? (fun c => c.fullscreen == CF_OUTPUT) =
      some ({ target with fullscreen := CF_OUTPUT } : Ws) := by
  induction content with
  | nil => simp at hmem
  | cons c rest ih =>
    simp only [showFullscreenPass, List.map_cons]
    by_cases hc : c.wid = tw
    · have hct : c = target := huniq c (by simp) hc
      subst hct
      rw [if_pos hc]
      exact List.find?_cons_of_pos _ (by simp)
    · rw [if_neg hc]
      rw [List.find?_cons_of_neg]
      · have hmem2 : target ∈ rest := by
          rcases List.mem_cons.mp hmem with rfl | hm
          · exact absurd htw hc
          · exact hm
        have := ih hmem2 (fun d hd hdw => huniq d (by simp [hd]) hdw)
        simpa [showFullscreenPass] using this
      · simp

theorem mem_removeWs_ne (w : World) (wid : Nat) :
    ∀ c ∈ (removeWs w wid).allWs, c.wid ≠ wid := by
  intro c hc
  rcases (mem_allWs_iff _ c).mp hc with ⟨o, ho, hco⟩
  simp only [removeWs, List.mem_map] at ho
  rcases ho with ⟨p, hp, rfl⟩
  simp only [List.mem_filter] at hco
  simpa using hco.2

theorem mem_removeWs_of_mem (w : World) (wid : Nat) (c : Ws)
    (hc : c ∈ w.allWs) (hne : c.wid ≠ wid) :
    c ∈ (removeWs w wid).allWs := by
  rcases (mem_allWs_iff _ c).mp hc with ⟨o, ho, hco⟩
  apply (mem_allWs_iff _ c).mpr
  refine ⟨{ o with content := o.content.filter (fun c => ! (c.wid == wid)) },
    ?_, ?_⟩
  · simp only [removeWs]
    exact List.mem_map_of_mem _ ho
  · exact List.mem_filter.mpr ⟨hco, by simp [hne]⟩

theorem mem_allWsL_mapContent (outs : List OutputC) (tw : Nat) (ws : Ws)
    (h : ws ∈ allWsL outs) :
    ∃ c ∈ allWsL (mapContentOfOutputContaining outs tw (showFullscreenPass tw)),
      c.wid = ws.wid ∧ c.name = ws.name ∧ c.nodes = ws.nodes ∧
      c.floating = ws.floating := by
  induction outs with
  | nil => simp [allWsL] at h
  | cons o rest ih =>
    rw [allWsL_cons] at h
    simp only [mapContentOfOutputContaining]
    split
    · rw [allWsL_cons]
      rcases List.mem_append.mp h with hin | hin
      · refine ⟨(if ws.wid = tw then { ws with fullscreen := CF_OUTPUT }
          else { ws with fullscreen := CF_NONE }), ?_, ?_⟩
        · exact List.mem_append_left _ (List.mem_map_of_mem _ hin)
        · split <;> simp
      · exact ⟨ws, List.mem_append_right _ hin, rfl, rfl, rfl, rfl⟩
    · rw [allWsL_cons]
      rcases List.mem_append.mp h with hin | hin
      · exact ⟨ws, List.mem_append_left _ hin, rfl, rfl, rfl, rfl⟩
      · rcases ih hin with ⟨c, hc, hprops⟩
        exact ⟨c, List.mem_append_right _ hc, hprops⟩

theorem mem_allWsL_mapContent_rev (outs : List OutputC) (tw : Nat) (c : Ws)
    (h : c ∈ allWsL (mapContentOfOutputContaining outs tw (showFullscreenPass tw))) :
    ∃ d ∈ allWsL outs, c.wid = d.wid ∧ c.name = d.name ∧ c.nodes = d.nodes ∧
      c.floating = d.floating := by
  induction outs with
  | nil => simp [mapContentOfOutputContaining, allWsL] at h
  | cons o rest ih =>
    simp only [mapContentOfOutputContaining] at h
    by_cases hcond : o.content.any (fun x => x.wid == tw) = true
    · rw [if_pos hcond, allWsL_cons] at h
      rcases List.mem_append.mp h with hin | hin
      · simp only [showFullscreenPass, List.mem_map] at hin
        rcases hin with ⟨d, hd, heq⟩
        refine ⟨d, by rw [allWsL_cons]; exact List.mem_append_left _ hd, ?_⟩
        rw [← heq]
        split <;> simp
      · exact ⟨c, by rw [allWsL_cons]; exact List.mem_append_right _ hin,
          rfl, rfl, rfl, rfl⟩
    · rw [if_neg hcond, allWsL_cons] at h
      rcases List.mem_append.mp h with hin | hin
      · exact ⟨c, by rw [allWsL_cons]; exact List.mem_append_left _ hin,
          rfl, rfl, rfl, rfl⟩
      · rcases ih hin with ⟨d, hd, hprops⟩
        exact ⟨d, by rw [allWsL_cons]; exact List.mem_append_right _ hd, hprops⟩

theorem allWsL_append (a b : List OutputC) :
    allWsL (a ++ b) = allWsL a ++ allWsL b := by
  simp [allWsL]

theorem mem_allWsL_iff (outs : List OutputC) (c : Ws) :
    c ∈ allWsL outs ↔ ∃ o ∈ outs, c ∈ o.content := by
  simp only [allWsL, List.mem_flatten, List.mem_map]
  constructor
  · rintro ⟨l, ⟨o, ho, rfl⟩, hin⟩
    exact ⟨o, ho, hin⟩
  · rintro ⟨o, ho, hin⟩
    exact ⟨o.content, ⟨o, ho, rfl⟩, hin⟩

theorem widsNodup_cross (w : World) (pre : List OutputC) (o : OutputC)
    (post : List OutputC)
    (houts : w.outputs = pre ++ o :: post) (hnd : widsNodup w)
    (x : Ws) (hx : x ∈ o.content) :
    (∀ p ∈ pre, ∀ c ∈ p.content, c.wid ≠ x.wid) ∧
    (∀ p ∈ post, ∀ c ∈ p.content, c.wid ≠ x.wid) := by
  have hsplit : w.allWs = allWsL pre ++ (o.content ++ allWsL post) := by
    rw [allWs_eq_allWsL, houts, allWsL_append, allWsL_cons]
  unfold widsNodup at hnd
  rw [hsplit, List.map_append, List.map_append] at hnd
  have hparts := List.nodup_append.mp hnd
  constructor
  · intro p hp c hc hcx
    have hcmem : c.wid ∈ (allWsL pre).map Ws.wid :=
      List.mem_map_of_mem _ ((mem_allWsL_iff pre c).mpr ⟨p, hp, hc⟩)
    have hxmem : x.wid ∈ o.content.map Ws.wid ++ (allWsL post).map Ws.wid :=
      List.mem_append_left _ (List.mem_map_of_mem _ hx)
    exact hparts.2.2 hcmem (hcx ▸ hxmem)
  · intro p hp c hc hcx
    have hmid := List.nodup_append.mp hparts.2.1
    have hcmem : c.wid ∈ (allWsL post).map Ws.wid :=
      List.mem_map_of_mem _ ((mem_allWsL_iff post c).mpr ⟨p, hp, hc⟩)
    exact hmid.2.2 (List.mem_map_of_mem _ hx) (hcx ▸ hcmem)

/-- Claim C1. When workspace_show switches to a non-internal workspace
`target` that is not the currently focused one, and `old` is the
previously visible workspace (fullscreen_mode CF_OUTPUT) of the
target's output, distinct from the target: if `old` has no tiling and
no floating children it is closed — no workspace with its identity
remains in the tree — and the workspace IPC event with change "empty"
is emitted; and if `old` still has at least one floating child it is
not closed and no "empty" event is emitted. (The claim's "not
named-user" hypothesis is mirrored as `old.num ≠ -1`; the code closes
empty invisible workspaces regardless of it.) -/
theorem workspace_show_closes_empty_old
    (w : World) (target old : Ws) (pre post : List OutputC) (o : OutputC)
    (houts : w.outputs = pre ++ o :: post)
    (hnd : widsNodup w)
    (htin : target ∈ o.content)
    (hnotint : isInternalName target.name = false)
    (hswitch : w.focusedWs ≠ some target.wid)
    (holdmem : old ∈ o.content)
    (holdfs : old.fullscreen = CF_OUTPUT)
    (holduniq : ∀ c ∈ o.content, c.fullscreen = CF_OUTPUT → c = old)
    (holdne : old.wid ≠ target.wid)
    (hnamed : old.num ≠ -1) :
    (old.nodes = [] → old.floating = [] →
      (∀ c ∈ (workspace_show w target.wid).1.allWs, c.wid ≠ old.wid) ∧
      Effect.ipcWorkspaceEvent "empty" ∈ (workspace_show w target.wid).2) ∧
    (old.floating ≠ [] →
      (∃ c ∈ (workspace_show w target.wid).1.allWs, c.wid = old.wid) ∧
      Effect.ipcWorkspaceEvent "empty" ∉ (workspace_show w target.wid).2) := by
  have hoin : o ∈ w.outputs := by
    rw [houts]
    exact List.mem_append_right _ (by simp)
  have hmemT : target ∈ w.allWs := (mem_allWs_iff w target).mpr ⟨o, hoin, htin⟩
  have hmemOld : old ∈ w.allWs := (mem_allWs_iff w old).mpr ⟨o, hoin, holdmem⟩
  have huniqT : ∀ c ∈ w.allWs, c.wid = target.wid → c = target := by
    intro c hc hcw
    exact mem_allWs_wid_inj w hnd c target hc hmemT hcw
  have huniqO : ∀ c ∈ o.content, c.wid = target.wid → c = target := by
    intro c hc hcw
    exact huniqT c ((mem_allWs_iff w c).mpr ⟨o, hoin, hc⟩) hcw
  have hfind : findWsByWid w target.wid = some target :=
    findWsByWid_eq w target hmemT huniqT
  have hcrossT := widsNodup_cross w pre o post houts hnd target htin
  have hcrossO := widsNodup_cross w pre o post houts hnd old holdmem
  have hout : outputOf w target.wid = some o :=
    outputOf_first w target.wid pre o post houts hcrossT.1 ⟨target, htin, rfl⟩
  have hold : findOldWs o.content = some old :=
    findOldWs_eq_unique o.content old holdmem holdfs holduniq
  have hmc : mapContentOfOutputContaining w.outputs target.wid
      (showFullscreenPass target.wid) =
      pre ++ passOutput o target.wid :: post := by
    rw [houts]
    exact mapContent_first pre o post target.wid _ hcrossT.1 ⟨target, htin, rfl⟩
  have himgOld : ({ old with fullscreen := CF_NONE } : Ws) ∈
      showFullscreenPass target.wid o.content := by
    unfold showFullscreenPass
    rw [List.mem_map]
    exact ⟨old, holdmem, by rw [if_neg holdne]⟩
  have hvis : workspace_is_visible
      { w with outputs := pre ++ passOutput o target.wid :: post }
      old.wid = false := by
    have ho1 : outputOf
        { w with outputs := pre ++ passOutput o target.wid :: post }
        old.wid = some (passOutput o target.wid) := by
      apply outputOf_first _ old.wid pre _ post rfl hcrossO.1
      exact ⟨{ old with fullscreen := CF_NONE }, himgOld, rfl⟩
    have hfs1 : fullscreenWsOf (passOutput o target.wid) =
        some ({ target with fullscreen := CF_OUTPUT } : Ws) := by
      unfold fullscreenWsOf passOutput
      exact fullscreenWsOf_after_pass target.wid o.content target htin rfl huniqO
    simp only [workspace_is_visible, ho1, hfs1]
    have hne2 : target.wid ≠ old.wid := Ne.symm holdne
    simpa using hne2
  simp only [workspace_show, workspace_show_impl, hfind, hout, hold, hnotint,
    Bool.false_eq_true, if_false, if_neg hswitch, hmc, hvis]
  constructor
  · intro he1 he2
    simp only [he1, he2, List.isEmpty_nil, Bool.and_self, if_true,
      Bool.not_false, if_pos]
    constructor
    · intro c hc
      exact mem_removeWs_ne _ old.wid c hc
    · simp
  · intro hfl
    have hflE : old.floating.isEmpty = false := by
      cases hfle : old.floating with
      | nil => exact absurd hfle hfl
      | cons a l => rfl
    simp only [hflE, Bool.and_false, if_false]
    constructor
    · have hllist : ({ old with fullscreen := CF_NONE } : Ws) ∈
          allWsL (pre ++ passOutput o target.wid :: post) := by
        rw [allWsL_append, allWsL_cons]
        exact List.mem_append_right _ (List.mem_append_left _ himgOld)
      exact ⟨{ old with fullscreen := CF_NONE }, hllist, rfl⟩
    · by_cases hwarp : w.focusedOutput ≠ o.name <;> simp [hwarp]

/-- Witness for `workspace_show_closes_empty_old`: switching from the
empty visible workspace "1" to "2" closes "1" and emits "empty". -/
theorem workspace_show_closes_empty_old_witness :
    (∀ c ∈ (workspace_show wC1 2).1.allWs, c.wid ≠ 1) ∧
    Effect.ipcWorkspaceEvent "empty" ∈ (workspace_show wC1 2).2 := by
  have h := (workspace_show_closes_empty_old wC1 tgtTwo oldOne [] []
      ⟨"out0", [oldOne, tgtTwo]⟩
      rfl
      (show (wC1.allWs.map Ws.wid).Nodup by decide)
      (by simp [oldOne, tgtTwo])
      (by decide)
      (by decide)
      (by simp [oldOne, tgtTwo])
      rfl
      (by
        intro c hc hcf
        rcases List.mem_cons.mp hc with rfl | hc2
        · rfl
        · rcases List.mem_cons.mp hc2 with rfl | hc3
          · exact absurd hcf (by decide)
          · simp at hc3)
      (by decide)
      (by decide)).1 rfl rfl
  exact h

/-- The only workspace `_workspace_show` ever removes from the tree is
one whose pre-state fullscreen_mode is CF_OUTPUT: any workspace whose
identity differs from every CF_OUTPUT workspace survives (with its
name) through the whole call. -/
theorem workspace_show_preserves_ws (w : World) (tw : Nat) (iws : Ws)
    (hmem : iws ∈ w.allWs)
    (hsurv : ∀ x ∈ w.allWs, x.fullscreen = CF_OUTPUT → x.wid ≠ iws.wid) :
    ∃ c ∈ (workspace_show_impl w tw).1.allWs,
      c.wid = iws.wid ∧ c.name = iws.name := by
  unfold workspace_show_impl
  cases hf : findWsByWid w tw with
  | none => exact ⟨iws, hmem, rfl, rfl⟩
  | some target =>
    simp only
    by_cases hint : isInternalName target.name = true
    · simp only [hint, if_true]
      exact ⟨iws, hmem, rfl, rfl⟩
    · rw [if_neg hint]
      cases ho : outputOf w tw with
      | none => exact ⟨iws, hmem, rfl, rfl⟩
      | some o =>
        simp only
        rcases mem_allWsL_mapContent w.outputs tw iws hmem with
          ⟨c1, hc1, hw, hn, _, _⟩
        have hc1mem : c1 ∈ (World.mk
            (mapContentOfOutputContaining w.outputs tw (showFullscreenPass tw))
            w.focusedWs w.focusedOutput w.prevName w.wsAssignments).allWs := hc1
        by_cases hcur : w.focusedWs = some tw
        · rw [if_pos hcur]
          exact ⟨c1, hc1, hw, hn⟩
        · rw [if_neg hcur]
          cases holdv : findOldWs o.content with
          | none =>
            simp only
            exact ⟨c1, hc1, hw, hn⟩
          | some oldWs =>
            simp only
            have holdp := findOldWs_some o.content oldWs holdv
            have homem : o ∈ w.outputs := (outputOf_some_mem w tw o ho).1
            have holdall : oldWs ∈ w.allWs :=
              (mem_allWs_iff w oldWs).mpr ⟨o, homem, holdp.1⟩
            have hne : oldWs.wid ≠ iws.wid := hsurv oldWs holdall holdp.2
            by_cases hemp : (oldWs.nodes.isEmpty && oldWs.floating.isEmpty) = true
            · rw [if_pos hemp]
              by_cases hvz : workspace_is_visible { w with
                  outputs := mapContentOfOutputContaining w.outputs tw
                    (showFullscreenPass tw) } oldWs.wid = true
              · rw [hvz]
                simp only [Bool.not_true, Bool.false_eq_true, if_false]
                exact ⟨c1, hc1, hw, hn⟩
              · rw [Bool.not_eq_true] at hvz
                rw [hvz]
                simp only [Bool.not_false, if_true]
                refine ⟨c1, ?_, hw, hn⟩
                exact mem_removeWs_of_mem _ oldWs.wid c1 hc1mem
                  (by rw [hw]; exact Ne.symm hne)
            · rw [if_neg hemp]
              exact ⟨c1, hc1, hw, hn⟩

/-- Claim C6. Internal workspaces (name starting with `__`): (i) showing
one is a complete no-op — _workspace_show returns before any
fullscreen change, focus change or previous-workspace update, and
emits nothing; (ii) provided no internal workspace is marked visible
(CF_OUTPUT) — which (i) maintains — a workspace_show call never
removes an internal workspace from the tree. -/
theorem workspace_show_internal_safe (w : World) (tw : Nat) :
    (∀ target, findWsByWid w tw = some target →
      isInternalName target.name = true →
      workspace_show w tw = (w, [])) ∧
    (widsNodup w →
      (∀ c ∈ w.allWs, c.fullscreen = CF_OUTPUT →
        isInternalName c.name = false) →
      ∀ iws ∈ w.allWs, isInternalName iws.name = true →
      ∃ c ∈ (workspace_show w tw).1.allWs,
        c.wid = iws.wid ∧ c.name = iws.name) := by
  constructor
  · intro target htgt hint
    simp only [workspace_show, workspace_show_impl, htgt, hint, if_true]
  · intro hnd hinv iws hmem hint
    apply workspace_show_preserves_ws w tw iws hmem
    intro x hx hxf hxw
    have hxi : x = iws := mem_allWs_wid_inj w hnd x iws hx hmem hxw
    have hfalse := hinv x hx hxf
    rw [hxi, hint] at hfalse
    exact absurd hfalse (by simp)

/-- Witness for `workspace_show_internal_safe`: showing the internal
scratch workspace is a no-op, and it survives a real switch. -/
theorem workspace_show_internal_safe_witness :
    workspace_show wC6 3 = (wC6, []) ∧
    ∃ c ∈ (workspace_show wC6 2).1.allWs,
      c.wid = 3 ∧ c.name = "__i3_scratch" := by
  constructor
  · exact (workspace_show_internal_safe wC6 3).1 wsScratch rfl (by decide)
  · exact (workspace_show_internal_safe wC6 2).2
      (show (wC6.allWs.map Ws.wid).Nodup by decide)
      (by
        intro c hc hcf
        simp [wC6, World.allWs] at hc
        rcases hc with rfl | rfl | rfl
        · exact absurd hcf (by decide)
        · decide
        · exact absurd hcf (by decide))
      wsScratch
      (by simp [wC6, World.allWs])
      (by decide)

/-- Claim C10. workspace_back_and_forth is a no-op when no previous
workspace name was recorded; otherwise it equals workspace_show_by_name
on the recorded name. And _workspace_show records a (new) previous
name only when genuinely switching: any name it stores is either the
previously stored one or the name of the currently focused workspace,
with the switch target existing, non-internal, and different from the
focused workspace. -/
theorem workspace_back_and_forth_spec (w : World) :
    (w.prevName = none → workspace_back_and_forth w = (w, [])) ∧
    (∀ n, w.prevName = some n →
      workspace_back_and_forth w = workspace_show_by_name w n) ∧
    (∀ tw n, (workspace_show_impl w tw).1.prevName = some n →
      w.prevName = some n ∨
      ∃ target cw c, findWsByWid w tw = some target ∧
        isInternalName target.name = false ∧
        w.focusedWs = some cw ∧ cw ≠ tw ∧
        c ∈ w.allWs ∧ c.wid = cw ∧ c.name = n) := by
  refine ⟨?_, ?_, ?_⟩
  · intro h
    simp [workspace_back_and_forth, h]
  · intro n h
    simp [workspace_back_and_forth, h]
  · intro tw n hprev
    unfold workspace_show_impl at hprev
    cases hf : findWsByWid w tw with
    | none =>
      rw [hf] at hprev
      exact Or.inl hprev
    | some target =>
      rw [hf] at hprev
      simp only at hprev
      by_cases hint : isInternalName target.name = true
      · rw [if_pos hint] at hprev
        exact Or.inl hprev
      · rw [if_neg hint] at hprev
        cases ho : outputOf w tw with
        | none =>
          rw [ho] at hprev
          exact Or.inl hprev
        | some o =>
          rw [ho] at hprev
          simp only at hprev
          by_cases hcur : w.focusedWs = some tw
          · rw [if_pos hcur] at hprev
            exact Or.inl hprev
          · rw [if_neg hcur] at hprev
            simp only at hprev
            rcases Option.map_eq_some'.mp hprev with ⟨c1, hbind, hname⟩
            rcases Option.bind_eq_some.mp hbind with ⟨cw, hcw, hfind1⟩
            have hprops := findWsByWid_some _ cw c1 hfind1
            rcases mem_allWsL_mapContent_rev w.outputs tw c1 hprops.1 with
              ⟨c0, hc0, hwid, hname0, _, _⟩
            refine Or.inr ⟨target, cw, c0, rfl, by simpa using hint, hcw, ?_,
              hc0, ?_, ?_⟩
            · intro hctw
              exact hcur (hctw ▸ hcw)
            · rw [← hwid]
              exact hprops.2
            · rw [← hname0]
              exact hname

/-- Witness for `workspace_back_and_forth_spec`: with no recorded name
back-and-forth is a no-op, and switching wC1 to workspace "2" records
the name "1" of the focused workspace. -/
theorem workspace_back_and_forth_spec_witness :
    workspace_back_and_forth wC1 = (wC1, []) ∧
    (wC1.prevName = some "1" ∨
      ∃ target cw c, findWsByWid wC1 2 = some target ∧
        isInternalName target.name = false ∧
        wC1.focusedWs = some cw ∧ cw ≠ 2 ∧
        c ∈ wC1.allWs ∧ c.wid = cw ∧ c.name = "1") :=
  ⟨(workspace_back_and_forth_spec wC1).1 rfl,
    (workspace_back_and_forth_spec wC1).2.2 2 "1" (by decide)⟩

/-- Claim C9. output_get_content returns the first CT_CON child of the
output; when at least one CT_CON child exists the assert(false) branch
is unreachable, and with no CT_CON child the function aborts — so an
output must keep its content container alive. -/
theorem output_get_content_spec (ns : List ONode) :
    ((∃ c ∈ ns, c.ctype = ConType.CT_CON) →
      ∃ pre c post, ns = pre ++ c :: post ∧ c.ctype = ConType.CT_CON ∧
        (∀ d ∈ pre, d.ctype ≠ ConType.CT_CON) ∧
        output_get_content ns = some c) ∧
    ((∀ c ∈ ns, c.ctype ≠ ConType.CT_CON) → output_get_content ns = none) := by
  induction ns with
  | nil =>
    constructor
    · intro h; simp at h
    · intro h; rfl
  | cons x rest ih =>
    constructor
    · intro hex
      by_cases hx : x.ctype = ConType.CT_CON
      · exact ⟨[], x, rest, by simp, hx, by simp,
          by simp [output_get_content, hx]⟩
      · have hexr : ∃ c ∈ rest, c.ctype = ConType.CT_CON := by
          rcases hex with ⟨c, hc, hcc⟩
          rcases List.mem_cons.mp hc with rfl | hc2
          · exact absurd hcc hx
          · exact ⟨c, hc2, hcc⟩
        rcases ih.1 hexr with ⟨pre, c, post, hdec, hcc, hpre, hres⟩
        refine ⟨x :: pre, c, post, by simp [hdec], hcc, ?_, ?_⟩
        · intro d hd
          rcases List.mem_cons.mp hd with rfl | hd2
          · exact hx
          · exact hpre d hd2
        · simpa [output_get_content, hx] using hres
    · intro hall
      have hx : x.ctype ≠ ConType.CT_CON := hall x (by simp)
      simp only [output_get_content, if_neg hx]
      exact ih.2 (fun c hc => hall c (by simp [hc]))

/-- Witness for `output_get_content_spec` on an output with a top
dockarea followed by the content container. -/
theorem output_get_content_spec_witness :
    ∃ pre c post,
      [(⟨1, ConType.CT_DOCKAREA⟩ : ONode), ⟨2, ConType.CT_CON⟩] =
        pre ++ c :: post ∧
      c.ctype = ConType.CT_CON ∧
      (∀ d ∈ pre, d.ctype ≠ ConType.CT_CON) ∧
      output_get_content [⟨1, ConType.CT_DOCKAREA⟩, ⟨2, ConType.CT_CON⟩] =
        some c :=
  (output_get_content_spec
    [⟨1, ConType.CT_DOCKAREA⟩, ⟨2, ConType.CT_CON⟩]).1
    ⟨⟨2, ConType.CT_CON⟩, by simp, rfl⟩

/-- Claim C8. Focusing a leaf whose window needs WM_TAKE_FOCUS (and is
not globally active) sends the WM_PROTOCOLS ClientMessage with format
32 and data [WM_TAKE_FOCUS, server_time] and issues no SetInputFocus;
focusing a leaf without WM_TAKE_FOCUS issues SetInputFocus and no
WM_PROTOCOLS ClientMessage. -/
theorem wm_take_focus_spec (win : XWindow) (atomTF time : Nat) :
    (win.needs_take_focus = true → win.globally_active = false →
      XEffect.clientMessage win.xid "WM_PROTOCOLS" 32 [atomTF, time] ∈
        focusLeafEffects win atomTF time ∧
      ∀ x, XEffect.setInputFocus x ∉ focusLeafEffects win atomTF time) ∧
    (win.needs_take_focus = false →
      XEffect.setInputFocus win.xid ∈ focusLeafEffects win atomTF time ∧
      ∀ a b c d, XEffect.clientMessage a b c d ∉
        focusLeafEffects win atomTF time) := by
  constructor
  · intro h1 h2
    simp [focusLeafEffects, h1, h2]
  · intro h1
    simp [focusLeafEffects, h1]

/-- Witness for `wm_take_focus_spec` on two concrete windows. -/
theorem wm_take_focus_spec_witness :
    (XEffect.clientMessage 7 "WM_PROTOCOLS" 32 [11, 13] ∈
      focusLeafEffects ⟨7, true, false⟩ 11 13 ∧
      ∀ x, XEffect.setInputFocus x ∉ focusLeafEffects ⟨7, true, false⟩ 11 13) ∧
    (XEffect.setInputFocus 8 ∈ focusLeafEffects ⟨8, false, false⟩ 11 13 ∧
      ∀ a b c d, XEffect.clientMessage a b c d ∉
        focusLeafEffects ⟨8, false, false⟩ 11 13) :=
  ⟨(wm_take_focus_spec ⟨7, true, false⟩ 11 13).1 rfl rfl,
    (wm_take_focus_spec ⟨8, false, false⟩ 11 13).2 rfl⟩

/- ### Decimal names are case-insensitivity-rigid -/

theorem char_toNat_ofNat (n : Nat) (h : n.isValidChar) :
    (Char.ofNat n).toNat = n := by
  unfold Char.ofNat
  rw [dif_pos h]
  rfl

theorem digitChar_toNat (d : Nat) (h : d < 10) :
    (Nat.digitChar d).toNat = 48 + d := by
  interval_cases d <;> decide

theorem digitChar_lower (d : Nat) (h : d < 10) :
    lowerChar (Nat.digitChar d) = Nat.digitChar d := by
  interval_cases d <;> decide

theorem lowerChar_eq_digit (a b : Char) (hlow : lowerChar a = b)
    (hd1 : 48 ≤ b.toNat) (hd2 : b.toNat ≤ 57) : a = b := by
  unfold lowerChar at hlow
  split at hlow
  · rename_i hAZ
    exfalso
    have h65 : 65 ≤ a.toNat := hAZ.1
    have h90 : a.toNat ≤ 90 := hAZ.2
    have hv : (a.toNat + 32).isValidChar := Or.inl (by omega)
    have hbt : b.toNat = a.toNat + 32 := by
      rw [← hlow]
      exact char_toNat_ofNat _ hv
    omega
  · exact hlow

theorem natToDecAux_digits (n : Nat) :
    ∀ ch ∈ natToDecAux n,
      48 ≤ ch.toNat ∧ ch.toNat ≤ 57 ∧ lowerChar ch = ch := by
  induction n using Nat.strong_induction_on with
  | _ n ih =>
    intro ch hch
    unfold natToDecAux at hch
    split at hch
    · rename_i h10
      simp only [List.mem_singleton] at hch
      subst hch
      exact ⟨by rw [digitChar_toNat n h10]; omega,
        by rw [digitChar_toNat n h10]; omega, digitChar_lower n h10⟩
    · rename_i h10
      rcases List.mem_append.mp hch with h1 | h2
      · exact ih (n / 10) (Nat.div_lt_self (by omega) (by omega)) ch h1
      · simp only [List.mem_singleton] at h2
        subst h2
        have hm : n % 10 < 10 := Nat.mod_lt _ (by omega)
        exact ⟨by rw [digitChar_toNat _ hm]; omega,
          by rw [digitChar_toNat _ hm]; omega, digitChar_lower _ hm⟩

theorem decValList_append_digit (xs : List Char) (c : Char) :
    decValList (xs ++ [c]) = decValList xs * 10 + (c.toNat - 48) := by
  unfold decValList
  rw [List.foldl_append]
  rfl

theorem decVal_natToDecAux (n : Nat) : decValList (natToDecAux n) = n := by
  induction n using Nat.strong_induction_on with
  | _ n ih =>
    unfold natToDecAux
    split
    · rename_i h10
      simp only [decValList, List.foldl_cons, List.foldl_nil]
      rw [digitChar_toNat n h10]
      omega
    · rename_i h10
      rw [decValList_append_digit,
        ih (n / 10) (Nat.div_lt_self (by omega) (by omega))]
      have hm : n % 10 < 10 := Nat.mod_lt _ (by omega)
      rw [digitChar_toNat _ hm]
      omega

theorem natToDec_inj (a b : Nat) (h : natToDec a = natToDec b) : a = b := by
  have hd : natToDecAux a = natToDecAux b := congrArg String.data h
  have := decVal_natToDecAux a
  rw [hd, decVal_natToDecAux b] at this
  omega

theorem map_lower_fix (l : List Char) (h : ∀ x ∈ l, lowerChar x = x) :
    l.map lowerChar = l := by
  induction l with
  | nil => rfl
  | cons x rest ih =>
    rw [List.map_cons, h x (by simp), ih (fun y hy => h y (by simp [hy]))]

theorem map_lower_eq_digits (xs ys : List Char)
    (h : xs.map lowerChar = ys)
    (hd : ∀ y ∈ ys, 48 ≤ y.toNat ∧ y.toNat ≤ 57) : xs = ys := by
  induction xs generalizing ys with
  | nil => simp at h; rw [← h]
  | cons x rest ih =>
    rw [List.map_cons] at h
    cases ys with
    | nil => simp at h
    | cons y rys =>
      injection h with h1 h2
      have hy := hd y (by simp)
      rw [lowerChar_eq_digit x y h1 hy.1 hy.2,
        ih rys h2 (fun z hz => hd z (by simp [hz]))]

theorem strCaseEq_natToDec (s : String) (n : Nat)
    (h : strCaseEq s (natToDec n) = true) : s = natToDec n := by
  unfold strCaseEq lowerStr at h
  rw [beq_iff_eq] at h
  have hfix : (natToDec n).data.map lowerChar = (natToDec n).data :=
    map_lower_fix _ (fun x hx => (natToDecAux_digits n x hx).2.2)
  rw [hfix] at h
  have hdig : ∀ y ∈ (natToDec n).data, 48 ≤ y.toNat ∧ y.toNat ≤ 57 :=
    fun y hy => ⟨(natToDecAux_digits n y hy).1, (natToDecAux_digits n y hy).2.1⟩
  have hdata := map_lower_eq_digits s.data (natToDec n).data h hdig
  cases s with
  | mk d => exact congrArg String.mk (by simpa using hdata)

theorem strCaseEq_self (s : String) : strCaseEq s s = true := by
  simp [strCaseEq]

/- ### The numeric fallback terminates and is minimal -/

theorem exists_free (w : World) :
    ∃ k, k < w.allWs.length + 1 ∧ existsWsCI w (natToDec (k + 1)) = false := by
  by_contra hall
  push_neg at hall
  have htrue : ∀ k < w.allWs.length + 1,
      existsWsCI w (natToDec (k + 1)) = true := by
    intro k hk
    have hne := hall k hk
    cases he : existsWsCI w (natToDec (k + 1))
    · exact absurd he hne
    · rfl
  have hmemname : ∀ k < w.allWs.length + 1,
      natToDec (k + 1) ∈ w.allWs.map Ws.name := by
    intro k hk
    have h1 := htrue k hk
    unfold existsWsCI at h1
    rw [List.any_eq_true] at h1
    rcases h1 with ⟨o, ho, h2⟩
    rw [List.any_eq_true] at h2
    rcases h2 with ⟨c, hc, h3⟩
    have hname : c.name = natToDec (k + 1) := strCaseEq_natToDec _ _ h3
    rw [← hname]
    exact List.mem_map_of_mem _ ((mem_allWs_iff w c).mpr ⟨o, ho, hc⟩)
  have hnd : ((List.range (w.allWs.length + 1)).map
      (fun k => natToDec (k + 1))).Nodup := by
    refine List.Nodup.map ?_ (List.nodup_range _)
    intro a b hab
    have := natToDec_inj (a + 1) (b + 1) hab
    omega
  have hsub : ((List.range (w.allWs.length + 1)).map
      (fun k => natToDec (k + 1))) ⊆ w.allWs.map Ws.name := by
    intro s hs
    rw [List.mem_map] at hs
    rcases hs with ⟨k, hk, rfl⟩
    exact hmemname k (List.mem_range.mp hk)
  have hcard1 : ((List.range (w.allWs.length + 1)).map
      (fun k => natToDec (k + 1))).toFinset.card = w.allWs.length + 1 := by
    rw [List.toFinset_card_of_nodup hnd]
    simp
  have hcard2 : (w.allWs.map Ws.name).toFinset.card ≤ w.allWs.length := by
    calc (w.allWs.map Ws.name).toFinset.card ≤ (w.allWs.map Ws.name).length :=
          (w.allWs.map Ws.name).toFinset_card_le
      _ = w.allWs.length := by simp
  have hle : ((List.range (w.allWs.length + 1)).map
      (fun k => natToDec (k + 1))).toFinset.card ≤
      (w.allWs.map Ws.name).toFinset.card := by
    apply Finset.card_le_card
    intro x hx
    rw [List.mem_toFinset] at hx
    rw [List.mem_toFinset]
    exact hsub hx
  omega

theorem findFreeNum_spec (w : World) :
    ∀ fuel start,
      (∃ k, k < fuel ∧ existsWsCI w (natToDec (start + k + 1)) = false) →
      ∃ c, findFreeNum w fuel start = some c ∧ start < c ∧
        existsWsCI w (natToDec c) = false ∧
        ∀ d, start < d → d < c → existsWsCI w (natToDec d) = true := by
  intro fuel
  induction fuel with
  | zero =>
    intro start h
    rcases h with ⟨k, hk, _⟩
    omega
  | succ fuel ih =>
    intro start h
    by_cases he : existsWsCI w (natToDec (start + 1)) = true
    · have hs : findFreeNum w (fuel + 1) start = findFreeNum w fuel (start + 1) := by
        simp [findFreeNum, he]
      rcases h with ⟨k, hk, hkf⟩
      have hk0 : k ≠ 0 := by
        intro h0
        subst h0
        rw [show start + 0 + 1 = start + 1 by omega] at hkf
        rw [he] at hkf
        exact absurd hkf (by simp)
      have hex2 : ∃ k2, k2 < fuel ∧
          existsWsCI w (natToDec (start + 1 + k2 + 1)) = false := by
        refine ⟨k - 1, by omega, ?_⟩
        rw [show start + 1 + (k - 1) + 1 = start + k + 1 by omega]
        exact hkf
      rcases ih (start + 1) hex2 with ⟨c, hc, hlt, hfree, hmin⟩
      refine ⟨c, by rw [hs]; exact hc, by omega, hfree, ?_⟩
      intro d hd1 hd2
      by_cases hds : d = start + 1
      · rw [hds]
        exact he
      · exact hmin d (by omega) hd2
    · rw [Bool.not_eq_true] at he
      refine ⟨start + 1, ?_, by omega, he, ?_⟩
      · simp [findFreeNum, he]
      · intro d hd1 hd2
        omega

/-- Claim C5. When the binding scan of create_workspace_on_output finds
no free name, the new workspace is named with the decimal string of
the lowest positive integer c such that no workspace of that name
exists on any output, and its num field is c. -/
theorem create_workspace_fallback_spec (w : World) (outName : String)
    (bindings : List String)
    (hscan : (scanBindings w outName bindings "").2 = none) :
    ∃ (c : Nat) (r : World × Ws),
      create_workspace_on_output w outName bindings = some r ∧
      r.2.name = natToDec c ∧ r.2.num = (c : Int) ∧ 0 < c ∧
      (∀ ws ∈ w.allWs, ws.name ≠ natToDec c) ∧
      (∀ d, 0 < d → d < c → ∃ ws ∈ w.allWs, ws.name = natToDec d) := by
  rcases exists_free w with ⟨k, hk, hkf⟩
  rcases findFreeNum_spec w (w.allWs.length + 1) 0
      ⟨k, hk, by simpa using hkf⟩ with ⟨c, hfind, hpos, hfree, hmin⟩
  refine ⟨c,
    (World.mk
      (attachToOutput w.outputs outName
        (Ws.mk w.freshWid (natToDec c) (c : Int) ConType.CT_WORKSPACE
          CF_OUTPUT [] []))
      w.focusedWs w.focusedOutput w.prevName w.wsAssignments,
      Ws.mk w.freshWid (natToDec c) (c : Int) ConType.CT_WORKSPACE
        CF_OUTPUT [] []),
    ?_, rfl, rfl, hpos, ?_, ?_⟩
  · simp only [create_workspace_on_output, hscan, hfind]
  · intro ws hws heq
    have hx : existsWsCI w (natToDec c) = true := by
      unfold existsWsCI
      rw [List.any_eq_true]
      rcases (mem_allWs_iff w ws).mp hws with ⟨o, ho, hco⟩
      refine ⟨o, ho, ?_⟩
      rw [List.any_eq_true]
      exact ⟨ws, hco, by rw [heq]; exact strCaseEq_self _⟩
    rw [hfree] at hx
    exact absurd hx (by simp)
  · intro d hd1 hd2
    have hx := hmin d hd1 hd2
    unfold existsWsCI at hx
    rw [List.any_eq_true] at hx
    rcases hx with ⟨o, ho, h2⟩
    rw [List.any_eq_true] at h2
    rcases h2 with ⟨ws, hco, h3⟩
    exact ⟨ws, (mem_allWs_iff w ws).mpr ⟨o, ho, hco⟩,
      strCaseEq_natToDec _ _ h3⟩

/-- Witness for `create_workspace_fallback_spec`: no bindings at all,
one workspace "1" present — the fallback fires. -/
theorem create_workspace_fallback_spec_witness :
    ∃ (c : Nat) (r : World × Ws),
      create_workspace_on_output wC5 "out0" [] = some r ∧
      r.2.name = natToDec c ∧ r.2.num = (c : Int) ∧ 0 < c ∧
      (∀ ws ∈ wC5.allWs, ws.name ≠ natToDec c) ∧
      (∀ d, 0 < d → d < c → ∃ ws ∈ wC5.allWs, ws.name = natToDec d) :=
  create_workspace_fallback_spec wC5 "out0" [] rfl

/- ### Characterizing the phases of workspace_next -/

theorem foldl_flatten {α β : Type} (f : β → α → β) :
    ∀ (ls : List (List α)) (init : β),
      ls.flatten.foldl f init = ls.foldl (fun acc l => l.foldl f acc) init := by
  intro ls
  induction ls with
  | nil => intro init; rfl
  | cons l rest ih =>
    intro init
    rw [List.flatten_cons, List.foldl_append, List.foldl_cons, ih]

theorem nextNumFold_keep (curNum : Int) (l : List Ws) (a : Ws)
    (ha : curNum < a.num) :
    ∃ r, l.foldl (nextNumStep curNum) (some a) = some r ∧
      (r = a ∨ r ∈ l) ∧ curNum < r.num ∧ r.num ≤ a.num ∧
      ∀ c ∈ l, curNum < c.num → r.num ≤ c.num := by
  induction l generalizing a with
  | nil => exact ⟨a, rfl, Or.inl rfl, ha, le_refl _, by simp⟩
  | cons c rest ih =>
    simp only [List.foldl_cons, nextNumStep]
    by_cases hc : curNum < c.num ∧ c.num < a.num
    · rw [if_pos hc]
      rcases ih c hc.1 with ⟨r, hr, hmem, hrn, hra, hmin⟩
      refine ⟨r, hr, ?_, hrn, by omega, ?_⟩
      · rcases hmem with rfl | hm
        · exact Or.inr (by simp)
        · exact Or.inr (by simp [hm])
      · intro d hd hdc
        rcases List.mem_cons.mp hd with rfl | hd2
        · exact hra
        · exact hmin d hd2 hdc
    · rw [if_neg hc]
      rcases ih a ha with ⟨r, hr, hmem, hrn, hra, hmin⟩
      refine ⟨r, hr, ?_, hrn, hra, ?_⟩
      · rcases hmem with rfl | hm
        · exact Or.inl rfl
        · exact Or.inr (by simp [hm])
      · intro d hd hdc
        rcases List.mem_cons.mp hd with rfl | hd2
        · have hca : ¬ d.num < a.num := fun h2 => hc ⟨hdc, h2⟩
          omega
        · exact hmin d hd2 hdc

theorem nextNumFold_none (curNum : Int) (l : List Ws)
    (h : ∀ c ∈ l, ¬ curNum < c.num) :
    l.foldl (nextNumStep curNum) none = none := by
  induction l with
  | nil => rfl
  | cons c rest ih =>
    simp only [List.foldl_cons, nextNumStep]
    rw [if_neg (h c (by simp))]
    exact ih (fun d hd => h d (by simp [hd]))

theorem nextNumFold_start (curNum : Int) (l : List Ws)
    (h : ∃ c ∈ l, curNum < c.num) :
    ∃ r, l.foldl (nextNumStep curNum) none = some r ∧ r ∈ l ∧
      curNum < r.num ∧ ∀ c ∈ l, curNum < c.num → r.num ≤ c.num := by
  induction l with
  | nil => simp at h
  | cons c rest ih =>
    simp only [List.foldl_cons, nextNumStep]
    by_cases hc : curNum < c.num
    · rw [if_pos hc]
      rcases nextNumFold_keep curNum rest c hc with ⟨r, hr, hmem, hrn, hrc, hmin⟩
      refine ⟨r, hr, ?_, hrn, ?_⟩
      · rcases hmem with rfl | hm
        · exact by simp
        · exact by simp [hm]
      · intro d hd hdc
        rcases List.mem_cons.mp hd with rfl | hd2
        · exact hrc
        · exact hmin d hd2 hdc
    · rw [if_neg hc]
      have h2 : ∃ d ∈ rest, curNum < d.num := by
        rcases h with ⟨d, hd, hdc⟩
        rcases List.mem_cons.mp hd with rfl | hd2
        · exact absurd hdc hc
        · exact ⟨d, hd2, hdc⟩
      rcases ih h2 with ⟨r, hr, hmem, hrn, hmin⟩
      refine ⟨r, hr, by simp [hmem], hrn, ?_⟩
      intro d hd hdc
      rcases List.mem_cons.mp hd with rfl | hd2
      · exact absurd hdc hc
      · exact hmin d hd2 hdc

theorem phase1_eq_flat (outs : List OutputC) (curNum : Int) :
    phase1 outs curNum =
      ((outs.map (fun o => o.content.takeWhile (fun c => ! (c.num == -1)))).flatten).foldl
        (nextNumStep curNum) none := by
  unfold phase1
  rw [foldl_flatten]
  rw [List.foldl_map]

theorem mem_takeWhile_numbered (content : List Ws)
    (hs : NumsBeforeNames content) (c : Ws) (hc : c ∈ content)
    (hn : c.num ≠ -1) :
    c ∈ content.takeWhile (fun x => ! (x.num == -1)) := by
  induction content with
  | nil => simp at hc
  | cons h rest ih =>
    rcases List.pairwise_cons.mp hs with ⟨hh, hrest⟩
    by_cases hhn : h.num = -1
    · exfalso
      rcases List.mem_cons.mp hc with rfl | hc2
      · exact hn hhn
      · exact hn (hh c hc2 hhn)
    · rw [List.takeWhile_cons_of_pos (by simp [hhn])]
      rcases List.mem_cons.mp hc with rfl | hc2
      · simp
      · exact List.mem_cons_of_mem _ (ih hrest hc2)

theorem takeWhile_numbered_sub (content : List Ws) (c : Ws)
    (hc : c ∈ content.takeWhile (fun x => ! (x.num == -1))) :
    c ∈ content ∧ c.num ≠ -1 := by
  constructor
  · exact (List.takeWhile_sublist _).mem hc
  · have := List.mem_takeWhile_imp hc
    simpa using this

theorem phase2L_append (current : Ws) :
    ∀ (xs ys : List Ws) (fc : Bool),
      phase2L current (xs ++ ys) fc =
        match phase2L current xs fc with
        | (some c, f) => (some c, f)
        | (none, f2) => phase2L current ys f2 := by
  intro xs
  induction xs with
  | nil =>
    intro ys fc
    simp [phase2L]
  | cons c rest ih =>
    intro ys fc
    rw [List.cons_append]
    simp only [phase2L]
    by_cases h1 : c.wid = current.wid
    · rw [if_pos h1, if_pos h1, ih]
    · rw [if_neg h1, if_neg h1]
      by_cases h2 : c.num = -1 ∧ (current.num ≠ -1 ∨ fc = true)
      · rw [if_pos h2, if_pos h2]
      · rw [if_neg h2, if_neg h2, ih]

theorem phase2Outs_eq (current : Ws) :
    ∀ (outs : List OutputC) (fc : Bool),
      phase2Outs current outs fc = (phase2L current (allWsL outs) fc).1 := by
  intro outs
  induction outs with
  | nil =>
    intro fc
    simp [phase2Outs, allWsL, phase2L]
  | cons o rest ih =>
    intro fc
    rw [allWsL_cons, phase2L_append]
    simp only [phase2Outs]
    cases hx : phase2L current o.content fc with
    | mk fst snd =>
      cases fst with
      | none => simpa using ih snd
      | some c => simp

theorem phase2L_numbered (current : Ws) (hcn : current.num ≠ -1) :
    ∀ (l : List Ws) (fc : Bool),
      (∀ c ∈ l, c.wid = current.wid → c.num ≠ -1) →
      (phase2L current l fc).1 = l.find? (fun c => c.num == -1) := by
  intro l
  induction l with
  | nil => intro fc h; rfl
  | cons c rest ih =>
    intro fc h
    simp only [phase2L]
    by_cases h1 : c.wid = current.wid
    · rw [if_pos h1, List.find?_cons_of_neg]
      · exact ih true (fun d hd => h d (by simp [hd]))
      · simp [h c (by simp) h1]
    · rw [if_neg h1]
      by_cases h2 : c.num = -1
      · rw [if_pos ⟨h2, Or.inl hcn⟩, List.find?_cons_of_pos _ (by simp [h2])]
      · rw [if_neg (fun hx => h2 hx.1), List.find?_cons_of_neg _ (by simp [h2])]
        exact ih fc (fun d hd => h d (by simp [hd]))

theorem phase2L_pre (current : Ws) (hcn : current.num = -1) :
    ∀ (l : List Ws), (∀ c ∈ l, c.wid ≠ current.wid) →
      phase2L current l false = (none, false) := by
  intro l
  induction l with
  | nil => intro h; rfl
  | cons c rest ih =>
    intro h
    simp only [phase2L]
    rw [if_neg (h c (by simp))]
    rw [if_neg]
    · exact ih (fun d hd => h d (by simp [hd]))
    · rintro ⟨h1, h2 | h2⟩
      · exact h2 hcn
      · exact absurd h2 (by simp)

theorem phase2L_post (current : Ws) :
    ∀ (l : List Ws), (∀ c ∈ l, c.wid ≠ current.wid) →
      (phase2L current l true).1 = l.find? (fun c => c.num == -1) := by
  intro l
  induction l with
  | nil => intro h; rfl
  | cons c rest ih =>
    intro h
    simp only [phase2L]
    rw [if_neg (h c (by simp))]
    by_cases h2 : c.num = -1
    · rw [if_pos ⟨h2, Or.inr trivial⟩, List.find?_cons_of_pos _ (by simp [h2])]
    · rw [if_neg (fun hx => h2 hx.1), List.find?_cons_of_neg _ (by simp [h2])]
      exact ih (fun d hd => h d (by simp [hd]))

theorem phase2L_split (current : Ws) (hcn : current.num = -1)
    (l1 l2 : List Ws)
    (h1 : ∀ c ∈ l1, c.wid ≠ current.wid)
    (h2 : ∀ c ∈ l2, c.wid ≠ current.wid) :
    (phase2L current (l1 ++ current :: l2) false).1 =
      l2.find? (fun c => c.num == -1) := by
  rw [phase2L_append, phase2L_pre current hcn l1 h1]
  simp only [phase2L, if_pos rfl]
  exact phase2L_post current l2 h2

theorem phase3_eq_flat (outs : List OutputC) :
    phase3 outs = (allWsL outs).foldl phase3Step none := by
  unfold phase3 allWsL
  rw [foldl_flatten, List.foldl_map]

theorem phase3Fold_named (l : List Ws) (a : Ws) (ha : a.num = -1)
    (hge : ∀ c ∈ l, -1 ≤ c.num) :
    l.foldl phase3Step (some a) = some a := by
  induction l with
  | nil => rfl
  | cons c rest ih =>
    simp only [List.foldl_cons, phase3Step]
    rw [if_neg]
    · exact ih (fun d hd => hge d (by simp [hd]))
    · rintro ⟨h1, h2⟩
      have := hge c (by simp)
      omega

theorem phase3Fold_min (l : List Ws) (a : Ws) (ha : a.num ≠ -1) :
    ∃ r, l.foldl phase3Step (some a) = some r ∧
      (r = a ∨ r ∈ l) ∧ r.num ≠ -1 ∧ r.num ≤ a.num ∧
      ∀ c ∈ l, c.num ≠ -1 → r.num ≤ c.num := by
  induction l generalizing a with
  | nil => exact ⟨a, rfl, Or.inl rfl, ha, le_refl _, by simp⟩
  | cons c rest ih =>
    simp only [List.foldl_cons, phase3Step]
    by_cases hc : c.num ≠ -1 ∧ c.num < a.num
    · rw [if_pos hc]
      rcases ih c hc.1 with ⟨r, hr, hmem, hrn, hrc, hmin⟩
      refine ⟨r, hr, ?_, hrn, by omega, ?_⟩
      · rcases hmem with rfl | hm
        · exact Or.inr (by simp)
        · exact Or.inr (by simp [hm])
      · intro d hd hdn
        rcases List.mem_cons.mp hd with rfl | hd2
        · exact hrc
        · exact hmin d hd2 hdn
    · rw [if_neg hc]
      rcases ih a ha with ⟨r, hr, hmem, hrn, hra, hmin⟩
      refine ⟨r, hr, ?_, hrn, hra, ?_⟩
      · rcases hmem with rfl | hm
        · exact Or.inl rfl
        · exact Or.inr (by simp [hm])
      · intro d hd hdn
        rcases List.mem_cons.mp hd with rfl | hd2
        · have : ¬ d.num < a.num := fun h2 => hc ⟨hdn, h2⟩
          omega
        · exact hmin d hd2 hdn

theorem nextSibling_split (cur : Ws) (l1 l2 : List Ws)
    (h1 : ∀ c ∈ l1, c.wid ≠ cur.wid) :
    nextSibling (l1 ++ cur :: l2) cur.wid = l2.head? := by
  induction l1 with
  | nil => simp [nextSibling]
  | cons c rest ih =>
    rw [List.cons_append]
    simp only [nextSibling]
    rw [if_neg (h1 c (by simp))]
    exact ih (fun d hd => h1 d (by simp [hd]))

theorem afterIn_split (l1 : List Ws) (cur : Ws) (l2 : List Ws)
    (h1 : ∀ c ∈ l1, c.wid ≠ cur.wid) :
    afterIn (l1 ++ cur :: l2) cur.wid = l2 := by
  unfold afterIn
  induction l1 with
  | nil => simp [List.dropWhile_cons]
  | cons c rest ih =>
    rw [List.cons_append, List.dropWhile_cons_of_pos (by simp [h1 c (by simp)])]
    exact ih (fun d hd => h1 d (by simp [hd]))

theorem content_wid_nodup (w : World) (pre : List OutputC) (o : OutputC)
    (post : List OutputC)
    (houts : w.outputs = pre ++ o :: post) (hnd : widsNodup w) :
    (o.content.map Ws.wid).Nodup := by
  have hsplit : w.allWs = allWsL pre ++ (o.content ++ allWsL post) := by
    rw [allWs_eq_allWsL, houts, allWsL_append, allWsL_cons]
  unfold widsNodup at hnd
  rw [hsplit, List.map_append, List.map_append] at hnd
  exact (List.nodup_append.mp (List.nodup_append.mp hnd).2.1).1

/-- Claim C4, amended. The traversal of workspace_next over the
non-internal outputs: a numbered current workspace goes to the
workspace with the smallest num strictly greater than its own (over
all non-internal outputs); when no such numbered workspace exists the
result is the next named workspace in tree order (the first named
workspace for a numbered current; the one following the current
workspace for a named current); when still none exists the traversal
wraps to the first workspace in tree order when that workspace is
named, and otherwise to a numbered workspace of minimal num. -/
theorem workspace_next_spec (w : World) (current : Ws)
    (pre post : List OutputC) (o : OutputC)
    (houts : w.outputs = pre ++ o :: post)
    (hnd : widsNodup w)
    (hcin : current ∈ o.content)
    (honi : isInternalName o.name = false)
    (hfw : w.focusedWs = some current.wid)
    (hsort : ∀ q ∈ niOuts w, NumsBeforeNames q.content)
    (hge : ∀ c ∈ allNI w, -1 ≤ c.num) :
    (current.num ≠ -1 → (∃ c ∈ allNI w, c.num ≠ -1 ∧ current.num < c.num) →
      ∃ r, workspace_next w = some r ∧ r ∈ allNI w ∧ r.num ≠ -1 ∧
        current.num < r.num ∧
        ∀ c ∈ allNI w, c.num ≠ -1 → current.num < c.num → r.num ≤ c.num) ∧
    (current.num ≠ -1 → (∀ c ∈ allNI w, c.num ≠ -1 → ¬ current.num < c.num) →
      ∀ nx, (allNI w).find? (fun c => c.num == -1) = some nx →
      workspace_next w = some nx) ∧
    (current.num = -1 →
      ∀ nx, (afterIn (allNI w) current.wid).find? (fun c => c.num == -1) =
        some nx →
      workspace_next w = some nx) ∧
    (((current.num ≠ -1 ∧
        (∀ c ∈ allNI w, c.num ≠ -1 → ¬ current.num < c.num) ∧
        (allNI w).find? (fun c => c.num == -1) = none) ∨
      (current.num = -1 ∧
        (afterIn (allNI w) current.wid).find? (fun c => c.num == -1) = none)) →
      ∃ r h, workspace_next w = some r ∧ r ∈ allNI w ∧
        (allNI w).head? = some h ∧
        (h.num = -1 → r = h) ∧
        (h.num ≠ -1 → r.num ≠ -1 ∧
          ∀ c ∈ allNI w, c.num ≠ -1 → r.num ≤ c.num)) := by
  have hoin : o ∈ w.outputs := by
    rw [houts]
    exact List.mem_append_right _ (by simp)
  have hmemW : current ∈ w.allWs := (mem_allWs_iff w current).mpr ⟨o, hoin, hcin⟩
  have huniq : ∀ c ∈ w.allWs, c.wid = current.wid → c = current :=
    fun c hc hcw => mem_allWs_wid_inj w hnd c current hc hmemW hcw
  have hfind : findWsByWid w current.wid = some current :=
    findWsByWid_eq w current hmemW huniq
  have hbind : w.focusedWs.bind (fun c => findWsByWid w c) = some current := by
    rw [hfw]
    simpa using hfind
  have honiB : (! isInternalName o.name) = true := by simp [honi]
  have hni : niOuts w = pre.filter (fun q => ! isInternalName q.name) ++
      o :: post.filter (fun q => ! isInternalName q.name) := by
    unfold niOuts
    rw [houts, List.filter_append, List.filter_cons, if_pos honiB]
  have hsplitNI : allNI w =
      allWsL (pre.filter (fun q => ! isInternalName q.name)) ++
      (o.content ++ allWsL (post.filter (fun q => ! isInternalName q.name))) := by
    unfold allNI
    rw [hni, allWsL_append, allWsL_cons]
  have hNIsub : ∀ c ∈ allNI w, c ∈ w.allWs := by
    intro c hc
    rcases (mem_allWsL_iff _ c).mp hc with ⟨q, hq, hcq⟩
    exact (mem_allWs_iff w c).mpr ⟨q, List.mem_of_mem_filter hq, hcq⟩
  rcases List.append_of_mem hcin with ⟨s1, s2, hcsplit⟩
  have hcontnd : (o.content.map Ws.wid).Nodup :=
    content_wid_nodup w pre o post houts hnd
  have hcontnd2 := hcontnd
  rw [hcsplit, List.map_append, List.map_cons] at hcontnd2
  have hs1 : ∀ c ∈ s1, c.wid ≠ current.wid := by
    intro c hc hcw
    exact (List.nodup_append.mp hcontnd2).2.2
      (List.mem_map_of_mem _ hc) (by simp [hcw])
  have hs2 : ∀ c ∈ s2, c.wid ≠ current.wid := by
    intro c hc hcw
    have hcons := (List.nodup_append.mp hcontnd2).2.1
    rcases List.nodup_cons.mp hcons with ⟨hnotin, _⟩
    exact hnotin (by rw [← hcw]; exact List.mem_map_of_mem _ hc)
  have hcross := widsNodup_cross w pre o post houts hnd current hcin
  have hpreflat : ∀ c ∈ allWsL (pre.filter (fun q => ! isInternalName q.name)),
      c.wid ≠ current.wid := by
    intro c hc
    rcases (mem_allWsL_iff _ c).mp hc with ⟨q, hq, hcq⟩
    exact hcross.1 q (List.mem_of_mem_filter hq) c hcq
  have hpostflat : ∀ c ∈ allWsL (post.filter (fun q => ! isInternalName q.name)),
      c.wid ≠ current.wid := by
    intro c hc
    rcases (mem_allWsL_iff _ c).mp hc with ⟨q, hq, hcq⟩
    exact hcross.2 q (List.mem_of_mem_filter hq) c hcq
  have hL1 : ∀ c ∈ allWsL (pre.filter (fun q => ! isInternalName q.name)) ++ s1,
      c.wid ≠ current.wid := by
    intro c hc
    rcases List.mem_append.mp hc with hc | hc
    · exact hpreflat c hc
    · exact hs1 c hc
  have hL2 : ∀ c ∈ s2 ++ allWsL (post.filter (fun q => ! isInternalName q.name)),
      c.wid ≠ current.wid := by
    intro c hc
    rcases List.mem_append.mp hc with hc | hc
    · exact hs2 c hc
    · exact hpostflat c hc
  have hflat : allNI w =
      (allWsL (pre.filter (fun q => ! isInternalName q.name)) ++ s1) ++
      current ::
        (s2 ++ allWsL (post.filter (fun q => ! isInternalName q.name))) := by
    rw [hsplitNI, hcsplit]
    simp only [List.append_assoc, List.cons_append]
  have hafter : afterIn (allNI w) current.wid =
      s2 ++ allWsL (post.filter (fun q => ! isInternalName q.name)) := by
    rw [hflat]
    exact afterIn_split _ current _ hL1
  have hsibEq : nextSibling o.content current.wid = s2.head? := by
    rw [hcsplit]
    exact nextSibling_split current s1 s2 hs1
  have houtOf : outputOf w current.wid = some o :=
    outputOf_first w current.wid pre o post houts hcross.1 ⟨current, hcin, rfl⟩
  have hmemS : ∀ c : Ws,
      c ∈ ((niOuts w).map
        (fun q => q.content.takeWhile (fun x => ! (x.num == -1)))).flatten ↔
      (c ∈ allNI w ∧ c.num ≠ -1) := by
    intro c
    constructor
    · intro hc
      rw [List.mem_flatten] at hc
      rcases hc with ⟨l, hl, hcl⟩
      rw [List.mem_map] at hl
      rcases hl with ⟨q, hq, rfl⟩
      have hsub := takeWhile_numbered_sub q.content c hcl
      exact ⟨(mem_allWsL_iff _ _).mpr ⟨q, hq, hsub.1⟩, hsub.2⟩
    · rintro ⟨hc, hn⟩
      rcases (mem_allWsL_iff _ _).mp hc with ⟨q, hq, hcq⟩
      rw [List.mem_flatten]
      exact ⟨_, List.mem_map_of_mem _ hq,
        mem_takeWhile_numbered q.content (hsort q hq) c hcq hn⟩
  have hP2num : current.num ≠ -1 →
      phase2Outs current (niOuts w) false =
        (allNI w).find? (fun c => c.num == -1) := by
    intro hcn
    rw [phase2Outs_eq]
    exact phase2L_numbered current hcn (allNI w) false
      (fun c hc hcw => by rw [huniq c (hNIsub c hc) hcw]; exact hcn)
  have hP2named : current.num = -1 →
      phase2Outs current (niOuts w) false =
        (s2 ++ allWsL (post.filter (fun q => ! isInternalName q.name))).find?
          (fun c => c.num == -1) := by
    intro hcn
    rw [phase2Outs_eq]
    show (phase2L current (allNI w) false).1 = _
    rw [hflat]
    exact phase2L_split current hcn _ _ hL1 hL2
  refine ⟨?_, ?_, ?_, ?_⟩
  · -- (A) numbered current with a numbered successor
    intro hcn hex
    have hp1 : ∃ r, phase1 (niOuts w) current.num = some r ∧ r ∈ allNI w ∧
        r.num ≠ -1 ∧ current.num < r.num ∧
        ∀ c ∈ allNI w, c.num ≠ -1 → current.num < c.num → r.num ≤ c.num := by
      rw [phase1_eq_flat]
      rcases hex with ⟨c0, hc0, hc0n, hc0lt⟩
      rcases nextNumFold_start current.num _
          ⟨c0, (hmemS c0).mpr ⟨hc0, hc0n⟩, hc0lt⟩ with ⟨r, hr, hrm, hrlt, hmin⟩
      have hrS := (hmemS r).mp hrm
      exact ⟨r, hr, hrS.1, hrS.2, hrlt,
        fun c hc hcn2 hclt => hmin c ((hmemS c).mpr ⟨hc, hcn2⟩) hclt⟩
    rcases hp1 with ⟨r, hr, hrm, hrn, hrlt, hmin⟩
    refine ⟨r, ?_, hrm, hrn, hrlt, hmin⟩
    simp only [workspace_next, hbind, if_neg hcn, hr]
  · -- (B) numbered current, no numbered successor, a named workspace exists
    intro hcn hno nx hnx
    have hp1 : phase1 (niOuts w) current.num = none := by
      rw [phase1_eq_flat]
      apply nextNumFold_none
      intro c hc
      have hcS := (hmemS c).mp hc
      exact hno c hcS.1 hcS.2
    simp only [workspace_next, hbind, if_neg hcn, hp1, hP2num hcn, hnx]
  · -- (C) named current: next named workspace after it
    intro hcn nx hnx
    rw [hafter] at hnx
    cases hs2v : s2 with
    | nil =>
      rw [hs2v] at hnx
      simp only [List.nil_append] at hnx
      have hsib : nextSibling o.content current.wid = none := by
        rw [hsibEq, hs2v]
        rfl
      simp only [workspace_next, hbind, if_pos hcn, houtOf, hsib,
        hP2named hcn, hs2v, List.nil_append, hnx]
    | cons b s2t =>
      have hbmem : b ∈ allNI w := by
        rw [hflat, hs2v]
        exact List.mem_append_right _ (by simp)
      have hbnamed : b.num = -1 := by
        have hqsort := hsort o (List.mem_filter.mpr ⟨hoin, honiB⟩)
        unfold NumsBeforeNames at hqsort
        rw [hcsplit, hs2v] at hqsort
        have := List.pairwise_append.mp hqsort
        have hcur := this.2.1
        rcases List.pairwise_cons.mp hcur with ⟨hcb, _⟩
        exact hcb b (by simp) hcn
      have hnxb : nx = b := by
        rw [hs2v] at hnx
        rw [List.cons_append, List.find?_cons_of_pos _ (by simp [hbnamed])] at hnx
        injection hnx with hx
        exact hx.symm
      have hsib : nextSibling o.content current.wid = some b := by
        rw [hsibEq, hs2v]
        rfl
      simp only [workspace_next, hbind, if_pos hcn, houtOf, hsib, hnxb]
  · -- (D) wrap-around
    intro hcase
    have hp3 : workspace_next w = phase3 (niOuts w) := by
      rcases hcase with ⟨hcn, hno, hnone⟩ | ⟨hcn, hnone⟩
      · have hp1 : phase1 (niOuts w) current.num = none := by
          rw [phase1_eq_flat]
          apply nextNumFold_none
          intro c hc
          have hcS := (hmemS c).mp hc
          exact hno c hcS.1 hcS.2
        simp only [workspace_next, hbind, if_neg hcn, hp1, hP2num hcn, hnone]
      · rw [hafter] at hnone
        have hs2nil : s2 = [] := by
          cases hs2v : s2 with
          | nil => rfl
          | cons b s2t =>
            exfalso
            have hbnamed : b.num = -1 := by
              have hqsort := hsort o (List.mem_filter.mpr ⟨hoin, honiB⟩)
              unfold NumsBeforeNames at hqsort
              rw [hcsplit, hs2v] at hqsort
              have := List.pairwise_append.mp hqsort
              rcases List.pairwise_cons.mp this.2.1 with ⟨hcb, _⟩
              exact hcb b (by simp) hcn
            rw [hs2v, List.cons_append,
              List.find?_cons_of_pos _ (by simp [hbnamed])] at hnone
            exact absurd hnone (by simp)
        have hsib : nextSibling o.content current.wid = none := by
          rw [hsibEq, hs2nil]
          rfl
        have hnone2 : phase2Outs current (niOuts w) false = none := by
          rw [hs2nil] at hnone
          rw [hP2named hcn, hs2nil]
          simpa using hnone
        simp only [workspace_next, hbind, if_pos hcn, houtOf, hsib, hnone2]
    have hcurNI : current ∈ allNI w := by
      rw [hflat]
      exact List.mem_append_right _ (by simp)
    cases hNIv : allNI w with
    | nil =>
      rw [hNIv] at hcurNI
      simp at hcurNI
    | cons h t =>
      have hp3v : phase3 (niOuts w) = t.foldl phase3Step (some h) := by
        have hx : phase3 (niOuts w) = (allNI w).foldl phase3Step none :=
          phase3_eq_flat (niOuts w)
        rw [hx, hNIv, List.foldl_cons]
        rfl
      by_cases hhn : h.num = -1
      · have hkept : t.foldl phase3Step (some h) = some h :=
          phase3Fold_named t h hhn
            (fun c hc => hge c (by rw [hNIv]; simp [hc]))
        refine ⟨h, h, ?_, by simp, rfl, fun _ => rfl, ?_⟩
        · rw [hp3, hp3v, hkept]
        · intro hx
          exact absurd hhn hx
      · rcases phase3Fold_min t h hhn with ⟨r, hr, hmem, hrn, hra, hmin⟩
        refine ⟨r, h, ?_, ?_, rfl, fun hx => absurd hx hhn, ?_⟩
        · rw [hp3, hp3v, hr]
        · rcases hmem with rfl | hm
          · simp
          · simp [hm]
        · intro _
          refine ⟨hrn, ?_⟩
          intro c hc hcn2
          rcases List.mem_cons.mp hc with rfl | hc2
          · exact hra
          · exact hmin c hc2 hcn2

/-- Witness for `workspace_next_spec`: on wC1 (numbered workspaces 1
and 2, workspace 1 focused) the next workspace is the numbered
successor. -/
theorem workspace_next_spec_witness :
    ∃ r, workspace_next wC1 = some r ∧ r ∈ allNI wC1 ∧ r.num ≠ -1 ∧
      oldOne.num < r.num ∧
      ∀ c ∈ allNI wC1, c.num ≠ -1 → oldOne.num < c.num → r.num ≤ c.num := by
  refine (workspace_next_spec wC1 oldOne [] [] ⟨"out0", [oldOne, tgtTwo]⟩
    rfl
    (show (wC1.allWs.map Ws.wid).Nodup by decide)
    (by simp [oldOne, tgtTwo])
    (by decide)
    rfl
    ?_
    ?_).1 (by decide) ⟨tgtTwo, ?_, by decide, by decide⟩
  · intro q hq
    have hq2 : q ∈ [(⟨"out0", [oldOne, tgtTwo]⟩ : OutputC)] := hq
    simp only [List.mem_singleton] at hq2
    subst hq2
    unfold NumsBeforeNames
    refine List.pairwise_cons.mpr ⟨?_, List.pairwise_cons.mpr ⟨by simp, List.Pairwise.nil⟩⟩
    intro b hb hnum
    exact absurd hnum (by decide)
  · intro c hc
    have hc2 : c ∈ [oldOne, tgtTwo] := hc
    simp only [List.mem_cons, List.mem_singleton] at hc2
    rcases hc2 with rfl | rfl | h
    · decide
    · decide
    · simp at h
  · exact (show tgtTwo ∈ [oldOne, tgtTwo] by simp)

/-- Claim C4, counterexample. Per the claim's traversal order (numbered
workspaces by num ascending first, then named ones in tree order),
wrapping around reaches the first workspace of that order — a numbered
one whenever any numbered workspace exists. In the world where output
A holds only the focused named workspace "foo" and output B holds the
numbered workspace "1", no named workspace follows "foo", so the
traversal wraps; the claim demands the numbered workspace "1", but
workspace_next returns the named "foo" itself (phase 3 seeds `next`
with the first workspace in tree order and the `child->num <
next->num` comparison never replaces a named seed). -/
theorem workspace_next_claim_counterexample :
    ¬ (∀ (w : World) (current : Ws),
        w.focusedWs.bind (fun c => findWsByWid w c) = some current →
        current.num = -1 →
        (afterIn (allNI w) current.wid).find? (fun c => c.num == -1) = none →
        (∃ c ∈ allNI w, c.num ≠ -1) →
        ∀ r, workspace_next w = some r → r.num ≠ -1) := by
  intro h
  have hres : workspace_next wC4 = some wsFoo := by rfl
  have hc := h wC4 wsFoo rfl rfl (by rfl)
    ⟨wsNum1B, (show wsNum1B ∈ [wsFoo, wsNum1B] by simp), by decide⟩
    wsFoo hres
  exact hc rfl
